import Mathlib

/-!
Shallow embedding of `enhanced_scraper.py` from the `linkedin_scraper`
repository: the `ProfileDatabase` identity store (URL normalization,
dedup bookkeeping, load and save), the retrying `scrape_profile` fetch
orchestrator, and the frontier construction and checkpointing control
flow of `discover_and_scrape`.

URL strings are modelled as `List Char`.  `urllib.parse.urlparse` is
embedded following CPython `urllib/parse.py` (control-character
stripping, scheme, netloc, fragment, query and params splitting; the
IPv6 bracket validation and the netloc NFKC check, which affect none of
the inputs considered here, are not modelled, so the embedded parse is
total).  File system effects are modelled by an explicit `FileState`
input; the wall clock is an explicit `now` argument; the browser-driven
fetch of one profile is an explicit per-attempt outcome oracle.
-/

abbrev Chars := List Char

/-- CPython `_WHATWG_C0_CONTROL_OR_SPACE`: code points up to 0x20. -/
def isC0ControlOrSpace (c : Char) : Bool := c.toNat ≤ 0x20

/-- CPython `_UNSAFE_URL_BYTES_TO_REMOVE`: tab, carriage return, newline. -/
def isUnsafeUrlByte (c : Char) : Bool := c == '\t' || c == '\r' || c == '\n'

/-- CPython `scheme_chars`: ASCII letters, digits, plus, minus, dot. -/
def isSchemeChar (c : Char) : Bool := c.isAlpha || c.isDigit || c == '+' || c == '-' || c == '.'

/-- Python `str.lstrip(_WHATWG_C0_CONTROL_OR_SPACE)` on the raw URL. -/
def lstripC0 : Chars → Chars
  | [] => []
  | c :: cs => if isC0ControlOrSpace c then lstripC0 cs else c :: cs

/-- Python `url.replace(b, "")` for each unsafe byte. -/
def removeUnsafe (l : Chars) : Chars := l.filter (fun c => !isUnsafeUrlByte c)

/-- Index of the first occurrence of a character, Python `str.find` (as `Option`). -/
def findChar (c : Char) : Chars → Option Nat
  | [] => none
  | x :: xs => if x = c then some 0 else (findChar c xs).map (· + 1)

/-- Index of the last occurrence of a character, Python `str.rfind` (as `Option`). -/
def rfindChar (c : Char) (l : Chars) : Option Nat :=
  (findChar c l.reverse).map (fun i => l.length - 1 - i)

/-- Python `url.split(ch, 1)`: the part before the first occurrence and the
part after it (the whole string and an empty remainder when absent). -/
def splitOnce (ch : Char) (l : Chars) : Chars × Chars :=
  (l.takeWhile (fun c => c != ch), (l.dropWhile (fun c => c != ch)).drop 1)

/-- Scheme extraction step of CPython `urlsplit`, mirroring
`i = url.find(':'); if i > 0 and url[0].isascii() and url[0].isalpha()`
followed by the scheme-character scan of `url[:i]`: when all three tests
pass, the lower-cased scheme `url[:i]` is split off and the remainder is
`url[i+1:]`; otherwise the URL is left untouched with an empty scheme
(Python `find` returns `-1` when absent, which like position `0` fails
`i > 0`; the model uses a default of `0` for the same effect). -/
def splitScheme (url : Chars) : Chars × Chars :=
  if 0 < (findChar ':' url).getD 0 ∧ (url.headD ' ').isAlpha = true
      ∧ (url.take ((findChar ':' url).getD 0)).all isSchemeChar = true then
    ((url.take ((findChar ':' url).getD 0)).map Char.toLower,
     url.drop ((findChar ':' url).getD 0 + 1))
  else ([], url)

/-- Netloc delimiters of CPython `_splitnetloc`. -/
def isNetlocDelim (c : Char) : Bool := c == '/' || c == '?' || c == '#'

/-- CPython `_splitnetloc(url, 2)`: everything after the leading `//` up to
the first `/`, `?` or `#` is the netloc; the remainder keeps the delimiter. -/
def splitNetloc (url : Chars) : Chars × Chars :=
  ((url.drop 2).takeWhile (fun c => !isNetlocDelim c),
   (url.drop 2).dropWhile (fun c => !isNetlocDelim c))

structure UrlSplitResult where
  scheme : Chars
  netloc : Chars
  path : Chars
  query : Chars
  frag : Chars
deriving DecidableEq

/-- CPython `urlsplit` with `allow_fragments=True` (the default used by the
scraper): strip leading control characters and spaces, remove unsafe bytes,
split off scheme, netloc, fragment and query in that order. -/
def urlsplitChars (url0 : Chars) : UrlSplitResult :=
  let url1 := removeUnsafe (lstripC0 url0)
  let sp := splitScheme url1
  let np := if sp.2.take 2 = ['/', '/'] then splitNetloc sp.2 else ([], sp.2)
  let fp := splitOnce '#' np.2
  let qp := splitOnce '?' fp.1
  ⟨sp.1, np.1, qp.1, qp.2, fp.2⟩

/-- CPython `uses_params` (the schemes whose paths may carry `;params`). -/
def usesParams : List Chars :=
  [[], "ftp".toList, "hdl".toList, "prospero".toList, "http".toList, "imap".toList,
   "https".toList, "shttp".toList, "rtsp".toList, "rtspu".toList, "sip".toList,
   "sips".toList, "mms".toList, "sftp".toList, "tel".toList]

/-- CPython `_splitparams`: drop the `;params` suffix of the last path
segment (searching for `;` from the last `/` when the path has one). -/
def splitParamsChars (url : Chars) : Chars × Chars :=
  match rfindChar '/' url with
  | some j =>
    match (findChar ';' (url.drop j)).map (· + j) with
    | some i => (url.take i, url.drop (i + 1))
    | none => (url, [])
  | none =>
    match findChar ';' url with
    | some i => (url.take i, url.drop (i + 1))
    | none => (url, [])

structure UrlParseResult where
  scheme : Chars
  netloc : Chars
  path : Chars
  par : Chars
  query : Chars
  frag : Chars
deriving DecidableEq

/-- CPython `urlparse`: `urlsplit` followed by params splitting for the
schemes in `uses_params`. -/
def urlparseChars (url : Chars) : UrlParseResult :=
  let r := urlsplitChars url
  if r.scheme ∈ usesParams ∧ ';' ∈ r.path then
    let pp := splitParamsChars r.path
    ⟨r.scheme, r.netloc, pp.1, pp.2, r.query, r.frag⟩
  else
    ⟨r.scheme, r.netloc, r.path, [], r.query, r.frag⟩

/-- Python `path.rstrip('/')`: remove every trailing slash. -/
def rstripSlashes (l : Chars) : Chars :=
  (l.reverse.dropWhile (fun c => c == '/')).reverse

/-- `ProfileDatabase._normalize_url` on character lists: empty input maps to
the empty identifier; otherwise the URL is parsed, the query (and fragment
and params) discarded, trailing slashes of the path stripped, and the result
reassembled as `scheme://netloc<path>`; the final split at `?` mirrors the
dead `if '?' in normalized` branch of the source. -/
def normalizeChars (url : Chars) : Chars :=
  if url = [] then []
  else
    let p := urlparseChars url
    let normalized := p.scheme ++ [':', '/', '/'] ++ p.netloc ++ rstripSlashes p.path
    if '?' ∈ normalized then normalized.takeWhile (fun c => c != '?') else normalized

/-- String-level wrapper of `ProfileDatabase._normalize_url`. -/
def ProfileDatabase.normalize_url (url : String) : String :=
  String.mk (normalizeChars url.toList)

/-- Per the spec text of claim C3 (strip exactly ONE trailing path
separator): same split, query discarded, but only one trailing slash
removed.  Used to contrast with the source behaviour, which strips all. -/
def normalizeSpecOneSlash (url : String) : String :=
  if url.toList = [] then ""
  else
    let p := urlparseChars url.toList
    let path1 := if p.path.getLast? = some '/' then p.path.dropLast else p.path
    String.mk (p.scheme ++ [':', '/', '/'] ++ p.netloc ++ path1)

/- ## The identity store: `ProfileDatabase` -/

structure Experience where
  position_title : String
  institution_name : String
  duration : String
  location : String
  descr : String
deriving DecidableEq

structure Education where
  institution_name : String
  degree : String
  from_date : String
  to_date : String
deriving DecidableEq

/-- The non-identifying payload fields of a `linkedin_scraper.Person`. -/
structure PersonFields where
  about : List String
  company : String
  job_title : String
  experiences : List Experience
  educations : List Education
  contacts : List String
  interests : List String
  accomplishments : List String
deriving DecidableEq

/-- A `linkedin_scraper.Person` as consumed by `ProfileDatabase`. -/
structure Person where
  linkedin_url : String
  name : String
  fields : PersonFields
deriving DecidableEq

/-- The per-profile dictionary built by `ProfileDatabase.add_profile`. -/
structure ProfileData where
  scraped_at : String
  name : String
  about : List String
  linkedin_url : String
  company : String
  job_title : String
  experiences : List Experience
  educations : List Education
  contacts : List String
  interests : List String
  accomplishments : List String
deriving DecidableEq

/-- State of the JSON storage file consumed by `_load_database`. -/
inductive FileState
  | missing
  | corrupt
  | valid : List (String × ProfileData) → FileState
deriving DecidableEq

/-- `json.load` on an open storage file: raises on a corrupt document. -/
def jsonLoadFile : FileState → Except String (List (String × ProfileData))
  | .missing => .error "FileNotFoundError"
  | .corrupt => .error "JSONDecodeError"
  | .valid d => .ok d

/-- `ProfileDatabase._load_database`: a missing file yields the empty
mapping; a corrupt file is caught (`except Exception`), logged as a
warning, and ALSO yields the empty mapping; otherwise the stored mapping
is returned.  The function is total: no error reaches the caller. -/
def ProfileDatabase.load_database (fs : FileState) : List (String × ProfileData) :=
  match fs with
  | .missing => []
  | _ =>
    match jsonLoadFile fs with
    | .ok d => d
    | .error _ => []

/-- Per the spec text of claim C2: load surfaces an error on corrupt
storage and returns the empty store only for missing storage.  Used to
contrast with the source behaviour. -/
def loadDatabaseSpec (fs : FileState) : Except String (List (String × ProfileData)) :=
  match fs with
  | .missing => .ok []
  | .corrupt => .error "corrupt storage"
  | .valid d => .ok d

/-- `ProfileDatabase`: the persisted mapping (a Python dict, modelled as an
insertion-ordered association list with unique keys) and the in-memory
known set (a Python set, modelled as a `Finset`). -/
structure ProfileDatabase where
  db_file : String
  profiles : List (String × ProfileData)
  scraped_urls : Finset String
deriving DecidableEq

/-- `ProfileDatabase.__init__`: load the mapping and take its key set. -/
def ProfileDatabase.init (db_file : String) (fs : FileState) : ProfileDatabase :=
  let profiles := ProfileDatabase.load_database fs
  ⟨db_file, profiles, (profiles.map Prod.fst).toFinset⟩

/-- A `ProfileDatabase` constructed over a missing storage file. -/
def emptyDb : ProfileDatabase := ProfileDatabase.init "scraped_profiles.json" FileState.missing

/-- `ProfileDatabase.is_scraped`: membership of the normalized URL in the
known set. -/
def ProfileDatabase.is_scraped (db : ProfileDatabase) (linkedin_url : String) : Bool :=
  decide (ProfileDatabase.normalize_url linkedin_url ∈ db.scraped_urls)

/-- Python `dict` update `d[k] = v`: overwrite in place when the key is
present, append otherwise. -/
def dictInsert (l : List (String × ProfileData)) (k : String) (v : ProfileData) :
    List (String × ProfileData) :=
  if l.any (fun kv => kv.1 == k) then
    l.map (fun kv => if kv.1 == k then (k, v) else kv)
  else l ++ [(k, v)]

/-- The `profile_data` dictionary built inside `add_profile` from the
person and the capture timestamp `datetime.now().isoformat()`. -/
def profileDataOf (person : Person) (now : String) : ProfileData :=
  ⟨now, person.name, person.fields.about, person.linkedin_url,
   person.fields.company, person.fields.job_title, person.fields.experiences,
   person.fields.educations, person.fields.contacts, person.fields.interests,
   person.fields.accomplishments⟩

/-- `ProfileDatabase.add_profile`: normalize the person's URL, build the
profile dictionary (with the capture timestamp `now`), store it under the
normalized key and add the key to the known set. -/
def ProfileDatabase.add_profile (db : ProfileDatabase) (person : Person) (now : String) :
    ProfileDatabase :=
  let normalized_url := ProfileDatabase.normalize_url person.linkedin_url
  { db with
      profiles := dictInsert db.profiles normalized_url (profileDataOf person now)
      scraped_urls := insert normalized_url db.scraped_urls }

/-- `ProfileDatabase.get_profile_count`: `len(self.profiles)`. -/
def ProfileDatabase.get_profile_count (db : ProfileDatabase) : Nat :=
  db.profiles.length

/-- `ProfileDatabase.save_database` leaves the in-memory store untouched
(it serializes `self.profiles` to disk and catches its own I/O errors). -/
def ProfileDatabase.save_database (db : ProfileDatabase) : ProfileDatabase := db

/-- The store-facing operations a run may interleave. -/
inductive DbOp
  | add : Person → String → DbOp
  | check : String → DbOp
  | save : DbOp
  | count : DbOp

/-- Effect of one operation on the in-memory store: only `add_profile`
mutates it; `is_scraped`, `save_database` and `get_profile_count` read. -/
def ProfileDatabase.applyOp (db : ProfileDatabase) : DbOp → ProfileDatabase
  | .add p now => db.add_profile p now
  | .check _ => db
  | .save => db.save_database
  | .count => db

/- ## The fetch orchestrator: `scrape_profile` -/

/-- Outcome of one `Person(..., scrape=True)` construction: either an
exception, or a fetched record with a (possibly empty) name. -/
inductive AttemptOutcome
  | raises
  | fetched : String → PersonFields → AttemptOutcome
deriving DecidableEq

/-- The retry loop of `scrape_profile`, with `k` attempts already made and
the given budget left.  A fetched record with a non-empty name is added to
the store and returned; a fetched record with an empty name returns `None`
at once (no retry); an exception consumes one retry.  The returned `Nat`
counts attempts actually made. -/
def scrapeAttemptLoop (db : ProfileDatabase) (url : String) (now : String)
    (outcome : Nat → AttemptOutcome) (k : Nat) :
    Nat → Option Person × ProfileDatabase × Nat
  | 0 => (none, db, k)
  | fuel + 1 =>
    match outcome k with
    | .fetched name fs =>
      let person : Person := ⟨url, name, fs⟩
      if name = "" then (none, db, k + 1)
      else (some person, db.add_profile person now, k + 1)
    | .raises => scrapeAttemptLoop db url now outcome (k + 1) fuel

/-- `EnhancedLinkedInScraper.scrape_profile`: skip an already-scraped URL,
otherwise run up to `max_retries` attempts. -/
def EnhancedLinkedInScraper.scrape_profile (db : ProfileDatabase) (url : String)
    (now : String) (outcome : Nat → AttemptOutcome) (max_retries : Nat) :
    Option Person × ProfileDatabase × Nat :=
  if db.is_scraped url then (none, db, 0)
  else scrapeAttemptLoop db url now outcome 0 max_retries

/- ## Frontier construction in `discover_and_scrape` -/

/-- The element set of `discovered_urls` after the strategy phase: the union
of the strategy outputs (duplicates collapse). -/
def discoveredUnion (outputs : List (List String)) : List String :=
  outputs.flatten.dedup

/-- The frontier consumed by the scraping loop: iterate the discovered set
in some order `ord`, keep the URLs the store does not know
(`not self.profile_db.is_scraped(url)`), shuffle
(`random.shuffle(new_urls)`), and only then truncate to `max_profiles`
(`new_urls[:max_profiles]`). -/
def discoverFrontier (db : ProfileDatabase) (ord : List String)
    (shuffleFn : List String → List String) (max_profiles : Nat) : List String :=
  (shuffleFn (ord.filter (fun u => !db.is_scraped u))).take max_profiles

/- ## Checkpointing in `discover_and_scrape` -/

/-- Observable checkpoint activity of one `discover_and_scrape` run:
how many targets the loop fully processed, the number of export attempts,
of export attempts that raised, and of `save_database` calls, plus the
running `scraped_count`. -/
structure CheckpointTrace where
  scraped_count : Nat
  export_calls : Nat
  export_raised : Nat
  save_calls : Nat
  processed : Nat
deriving DecidableEq

def emptyTrace : CheckpointTrace := ⟨0, 0, 0, 0, 0⟩

/-- One iteration of the scraping loop of `discover_and_scrape` as it
touches the checkpoint machinery.  `got` tells whether `scrape_profile`
returned a person.  On a checkpoint (`scraped_count % export_interval == 0`)
the export runs first; if it raises (`exportFails` holds at this export
call number) the exception is caught by the loop's `except Exception`
handler, so the iteration still completes — but `save_database` is NOT
reached at that checkpoint. -/
def checkpointStep (exportFails : Nat → Bool) (export_interval : Nat)
    (t : CheckpointTrace) (got : Bool) : CheckpointTrace :=
  if got then
    if (t.scraped_count + 1) % export_interval = 0 then
      if exportFails t.export_calls then
        { t with scraped_count := t.scraped_count + 1, export_calls := t.export_calls + 1,
                 export_raised := t.export_raised + 1, processed := t.processed + 1 }
      else
        { t with scraped_count := t.scraped_count + 1, export_calls := t.export_calls + 1,
                 save_calls := t.save_calls + 1, processed := t.processed + 1 }
    else { t with scraped_count := t.scraped_count + 1, processed := t.processed + 1 }
  else { t with processed := t.processed + 1 }

/-- The scraping loop of `discover_and_scrape` over the per-target results
`targets` (whether each target yielded a person). -/
def scrapeLoopRun (exportFails : Nat → Bool) (export_interval : Nat)
    (targets : List Bool) : CheckpointTrace :=
  targets.foldl (checkpointStep exportFails export_interval) emptyTrace

/-- The whole of `discover_and_scrape` after discovery: the scraping loop,
then the unguarded final `export_to_excel()` and `save_database()`.  When
the final export raises, the exception propagates out of
`discover_and_scrape` (the `Bool` component is `false`) and the final
`save_database` is never reached. -/
def discoverAndScrapeRun (exportFails : Nat → Bool) (export_interval : Nat)
    (targets : List Bool) : CheckpointTrace × Bool :=
  let t := scrapeLoopRun exportFails export_interval targets
  if exportFails t.export_calls then
    ({ t with export_calls := t.export_calls + 1,
              export_raised := t.export_raised + 1 }, false)
  else
    ({ t with export_calls := t.export_calls + 1,
              save_calls := t.save_calls + 1 }, true)

/- ## Concrete fixtures used by witnesses and counterexamples -/

/-- An all-empty payload. -/
def defFields : PersonFields := ⟨[], "", "", [], [], [], [], []⟩

/-- An all-empty stored profile record. -/
def dummyProfileData : ProfileData := ⟨"", "", [], "", "", "", [], [], [], [], []⟩

/-- Attempt oracle: the first fetch yields a record with an empty name,
every later fetch would yield a complete record. -/
def outcomeEmptyName : Nat → AttemptOutcome :=
  fun k => if k = 0 then AttemptOutcome.fetched "" defFields
           else AttemptOutcome.fetched "Alice" defFields

/-- Attempt oracle: the first fetch raises, every later fetch yields a
complete record. -/
def outcomeRaisesOnce : Nat → AttemptOutcome :=
  fun k => if k = 0 then AttemptOutcome.raises
           else AttemptOutcome.fetched "Alice" defFields

/-- Append a key only when it is not already present: the effect of one
`add_profile` call on the ordered key list of the `profiles` dict. -/
def insertAbsent (ks : List String) (k : String) : List String :=
  if k ∈ ks then ks else ks ++ [k]

/-- The representation invariant of `ProfileDatabase` relating the dict and
the known set: distinct keys, and `scraped_urls` is exactly the key set. -/
def dbInv (db : ProfileDatabase) : Prop :=
  (db.profiles.map Prod.fst).Nodup ∧
  db.scraped_urls = (db.profiles.map Prod.fst).toFinset

/-- A one-entry storage file (its JSON object has distinct keys). -/
def sampleFile : FileState := FileState.valid [("k", dummyProfileData)]

/-- A sample operation interleaving: one record, one membership query, one
persist, one count. -/
def sampleOps : List DbOp :=
  [DbOp.add ⟨"https://www.linkedin.com/in/z", "Zed", defFields⟩ "t1",
   DbOp.check "https://www.linkedin.com/in/z", DbOp.save, DbOp.count]

/- ## Lemmas: checkpointing -/

lemma checkpointStep_processed (ef : Nat → Bool) (K : Nat) (t : CheckpointTrace) (g : Bool) :
    (checkpointStep ef K t g).processed = t.processed + 1 := by
  unfold checkpointStep
  repeat' split
  all_goals rfl

lemma checkpointStep_saves (ef : Nat → Bool) (K : Nat) (t : CheckpointTrace) (g : Bool)
    (h : t.save_calls + t.export_raised = t.export_calls) :
    (checkpointStep ef K t g).save_calls + (checkpointStep ef K t g).export_raised
      = (checkpointStep ef K t g).export_calls := by
  unfold checkpointStep
  repeat' split
  all_goals simp only []
  all_goals omega

lemma scrapeLoop_foldl_processed (ef : Nat → Bool) (K : Nat) (targets : List Bool) :
    ∀ t : CheckpointTrace,
      (targets.foldl (checkpointStep ef K) t).processed = t.processed + targets.length := by
  induction targets with
  | nil => intro t; simp
  | cons g gs ih =>
    intro t
    simp only [List.foldl_cons, List.length_cons, ih, checkpointStep_processed]
    omega

lemma scrapeLoop_foldl_saves (ef : Nat → Bool) (K : Nat) (targets : List Bool) :
    ∀ t : CheckpointTrace, t.save_calls + t.export_raised = t.export_calls →
      (targets.foldl (checkpointStep ef K) t).save_calls
        + (targets.foldl (checkpointStep ef K) t).export_raised
        = (targets.foldl (checkpointStep ef K) t).export_calls := by
  induction targets with
  | nil => intro t h; simpa using h
  | cons g gs ih =>
    intro t h
    simpa using ih _ (checkpointStep_saves ef K t g h)

/- ## Claim C1 -/

/-- Claim C1, as stated, is false at this concrete run: with
`export_interval = 1` and one successful target, the periodic checkpoint
fires (one export call is made), the export raises, and `save_database`
is NOT run at that checkpoint (`save_calls = 0` during the loop); and a
raised final-checkpoint export propagates out of `discover_and_scrape`
(result flag `false`) with the final `save_database` skipped as well. -/
theorem C1_counterexample :
    (scrapeLoopRun (fun n => n == 0) 1 [true]).export_calls = 1
    ∧ (scrapeLoopRun (fun n => n == 0) 1 [true]).export_raised = 1
    ∧ (scrapeLoopRun (fun n => n == 0) 1 [true]).save_calls = 0
    ∧ (scrapeLoopRun (fun n => n == 0) 1 [true]).processed = 1
    ∧ (discoverAndScrapeRun (fun _ => true) 1 [true]).2 = false
    ∧ (discoverAndScrapeRun (fun _ => true) 1 [true]).1.save_calls = 0 := by
  decide

/-- Claim C1 amended: the two flushes are NOT independent.  At every
periodic checkpoint `save_database` runs exactly when the preceding
`export_to_excel` call did not raise (`save_calls + export_raised =
export_calls`); an export failure there is caught by the per-target
`except Exception` handler, so the loop itself never aborts (`processed`
equals the number of targets) and the checkpoint is re-attempted at the
next interval.  At the final checkpoint, however, an export failure
propagates out of `discover_and_scrape` (flag `false`) and the final
`save_database` is skipped (no additional save beyond the loop's). -/
theorem C1_amended (ef : Nat → Bool) (K : Nat) (targets : List Bool) :
    (scrapeLoopRun ef K targets).processed = targets.length
    ∧ (scrapeLoopRun ef K targets).save_calls + (scrapeLoopRun ef K targets).export_raised
        = (scrapeLoopRun ef K targets).export_calls
    ∧ (discoverAndScrapeRun ef K targets).2 = !(ef (scrapeLoopRun ef K targets).export_calls)
    ∧ (discoverAndScrapeRun ef K targets).1.save_calls
        = (scrapeLoopRun ef K targets).save_calls
          + (if ef (scrapeLoopRun ef K targets).export_calls then 0 else 1) := by
  refine ⟨?_, ?_, ?_, ?_⟩
  · simpa [scrapeLoopRun, emptyTrace] using scrapeLoop_foldl_processed ef K targets emptyTrace
  · exact scrapeLoop_foldl_saves ef K targets emptyTrace rfl
  · cases h : ef (scrapeLoopRun ef K targets).export_calls <;>
      simp [discoverAndScrapeRun, h]
  · cases h : ef (scrapeLoopRun ef K targets).export_calls <;>
      simp [discoverAndScrapeRun, h]

/- ## Claim C2 -/

/-- Claim C2, as stated, is false: a corrupt storage file is
indistinguishable from a missing one — `_load_database` catches the
decode error and returns the empty mapping (while the spec-mandated
behaviour `loadDatabaseSpec` returns an error), and the constructor
proceeds with an empty store. -/
theorem C2_counterexample :
    ProfileDatabase.load_database FileState.corrupt
      = ProfileDatabase.load_database FileState.missing
    ∧ (loadDatabaseSpec FileState.corrupt).isOk = false
    ∧ (jsonLoadFile FileState.corrupt).isOk = false
    ∧ (ProfileDatabase.init "scraped_profiles.json" FileState.corrupt).profiles = []
    ∧ (ProfileDatabase.init "scraped_profiles.json" FileState.corrupt).scraped_urls = ∅ := by
  refine ⟨rfl, rfl, rfl, rfl, rfl⟩

/-- Claim C2 amended: `_load_database` returns the empty mapping for a
MISSING file, and ALSO for a corrupt/unreadable file — the decode error
raised by `json.load` is caught and only logged as a warning, no error is
surfaced to the caller, and the orchestrator silently proceeds with an
empty store (a corrupt file is indistinguishable from a missing one).
Only a readable file yields its stored mapping. -/
theorem C2_amended :
    ProfileDatabase.load_database FileState.missing = []
    ∧ ProfileDatabase.load_database FileState.corrupt = []
    ∧ (∀ d, ProfileDatabase.load_database (FileState.valid d) = d)
    ∧ (∀ f, ProfileDatabase.init f FileState.corrupt = ProfileDatabase.init f FileState.missing) := by
  refine ⟨rfl, rfl, fun d => rfl, fun f => rfl⟩

/- ## Claim C7 -/

/-- Claim C7, as stated, is false at this concrete input: the empty raw
reference normalizes to the empty identifier, but `is_scraped` does NOT
treat it as always-known — on a freshly constructed (empty) store it
returns `false`, not `true`. -/
theorem C7_counterexample :
    ProfileDatabase.normalize_url "" = ""
    ∧ ProfileDatabase.is_scraped emptyDb "" = false := by
  refine ⟨rfl, by decide⟩

/-- Claim C7 amended: `is_scraped` never mutates the store (as a store
operation it is the identity on the state), and an empty raw reference
normalizes to the empty identifier, whose membership in the known set is
reported like any other key — `false` unless the empty identifier was
recorded — rather than being treated as always-known. -/
theorem C7_amended :
    (∀ (db : ProfileDatabase) (u : String), ProfileDatabase.applyOp db (DbOp.check u) = db)
    ∧ ProfileDatabase.normalize_url "" = ""
    ∧ (∀ db : ProfileDatabase,
        ProfileDatabase.is_scraped db "" = decide ("" ∈ db.scraped_urls)) := by
  refine ⟨fun db u => rfl, rfl, fun db => rfl⟩

/- ## Lemmas: the retry loop -/

lemma scrapeAttemptLoop_all_raises (db : ProfileDatabase) (url now : String)
    (outcome : Nat → AttemptOutcome) :
    ∀ (fuel k : Nat), (∀ j, j < fuel → outcome (k + j) = AttemptOutcome.raises) →
      scrapeAttemptLoop db url now outcome k fuel = (none, db, k + fuel) := by
  intro fuel
  induction fuel with
  | zero => intro k h; simp [scrapeAttemptLoop]
  | succ n ih =>
    intro k h
    have h0 : outcome k = AttemptOutcome.raises := by simpa using h 0 (Nat.succ_pos n)
    have hrest : ∀ j, j < n → outcome (k + 1 + j) = AttemptOutcome.raises := by
      intro j hj
      have := h (j + 1) (by omega)
      rw [show k + 1 + j = k + (j + 1) by omega]
      exact this
    unfold scrapeAttemptLoop
    rw [h0, ih (k + 1) hrest]
    rw [show k + 1 + n = k + (n + 1) by omega]

/- ## Claim C4 -/

/-- Claim C4, as stated, is false at this concrete input: with an attempt
oracle whose first fetch returns a record with an empty name (and whose
later fetches would succeed), `scrape_profile` returns `None` after
exactly ONE attempt, leaving the store untouched — it is not retried.  By
contrast, the oracle whose first fetch raises (a genuine recoverable
failure) IS retried and succeeds on the second attempt — so the two
outcomes are not treated identically. -/
theorem C4_counterexample :
    EnhancedLinkedInScraper.scrape_profile emptyDb "https://www.linkedin.com/in/x" "t0"
        outcomeEmptyName 3 = (none, emptyDb, 1)
    ∧ (EnhancedLinkedInScraper.scrape_profile emptyDb "https://www.linkedin.com/in/x" "t0"
        outcomeRaisesOnce 3).1 = some ⟨"https://www.linkedin.com/in/x", "Alice", defFields⟩
    ∧ (EnhancedLinkedInScraper.scrape_profile emptyDb "https://www.linkedin.com/in/x" "t0"
        outcomeRaisesOnce 3).2.2 = 2 := by
  refine ⟨by decide, by decide, by decide⟩

/-- Claim C4 amended: a fetched record with an empty name field is NOT
treated as a recoverable failure: `scrape_profile` logs it and returns
`None` immediately after the first attempt — no backoff, no re-entry into
the pending state, no further attempts out of the budget of 3 — and the
store is left unchanged.  Only raised exceptions take the retry path. -/
theorem C4_amended (db : ProfileDatabase) (url now : String)
    (outcome : Nat → AttemptOutcome) (fs : PersonFields)
    (h0 : outcome 0 = AttemptOutcome.fetched "" fs)
    (h1 : db.is_scraped url = false) :
    EnhancedLinkedInScraper.scrape_profile db url now outcome 3 = (none, db, 1) := by
  unfold EnhancedLinkedInScraper.scrape_profile
  rw [h1]
  simp only [Bool.false_eq_true, if_false]
  unfold scrapeAttemptLoop
  rw [h0]
  simp

/-- Witness for the amended claim C4 at a concrete input. -/
theorem C4_amended_witness :
    outcomeEmptyName 0 = AttemptOutcome.fetched "" defFields
    ∧ emptyDb.is_scraped "https://www.linkedin.com/in/w" = false
    ∧ EnhancedLinkedInScraper.scrape_profile emptyDb "https://www.linkedin.com/in/w" "t0"
        outcomeEmptyName 3 = (none, emptyDb, 1) :=
  ⟨by decide, by decide,
   C4_amended emptyDb "https://www.linkedin.com/in/w" "t0" outcomeEmptyName defFields
     (by decide) (by decide)⟩

/- ## Claim C5 -/

/-- Claim C5 (confirmed): when the URL is not already known and all
`max_retries` attempts raise, `scrape_profile` makes exactly `max_retries`
attempts, returns no record, and the returned store is the input store
unchanged — in particular the target's identifier is in neither
`profiles` nor `scraped_urls`, so it stays eligible for a future run. -/
theorem C5_hard_failed_leaves_store (db : ProfileDatabase) (url now : String)
    (outcome : Nat → AttemptOutcome) (max_retries : Nat)
    (hall : ∀ j, j < max_retries → outcome j = AttemptOutcome.raises)
    (hnew : db.is_scraped url = false) :
    EnhancedLinkedInScraper.scrape_profile db url now outcome max_retries
      = (none, db, max_retries) := by
  unfold EnhancedLinkedInScraper.scrape_profile
  rw [hnew]
  simp only [Bool.false_eq_true, if_false]
  simpa using scrapeAttemptLoop_all_raises db url now outcome max_retries 0
    (by simpa using hall)

/-- Witness for claim C5 at a concrete input: budget 3, every attempt
raises. -/
theorem C5_witness :
    (∀ j, j < 3 → (fun _ => AttemptOutcome.raises) j = AttemptOutcome.raises)
    ∧ emptyDb.is_scraped "https://www.linkedin.com/in/y" = false
    ∧ EnhancedLinkedInScraper.scrape_profile emptyDb "https://www.linkedin.com/in/y" "t0"
        (fun _ => AttemptOutcome.raises) 3 = (none, emptyDb, 3) :=
  ⟨fun j hj => rfl, by decide,
   C5_hard_failed_leaves_store emptyDb "https://www.linkedin.com/in/y" "t0"
     (fun _ => AttemptOutcome.raises) 3 (fun j hj => rfl) (by decide)⟩

/- ## Lemmas: frontier truncation -/

lemma head?_take_pos {α : Type} (l : List α) (N : Nat) (hN : 1 ≤ N) :
    (l.take N).head? = l.head? := by
  cases l with
  | nil => simp
  | cons a t =>
    cases N with
    | zero => omega
    | succ n => simp

lemma nodup_head?_ne_getLast? {α : Type} (l : List α) (h : l.Nodup) (hl : 2 ≤ l.length) :
    l.head? ≠ l.getLast? := by
  match l with
  | [] => simp at hl
  | [a] => simp at hl
  | a :: b :: t =>
    rw [List.getLast?_cons_cons, List.head?_cons]
    intro heq
    have hmem : a ∈ b :: t := by
      obtain ⟨hne, hax⟩ := List.mem_getLast?_eq_getLast (Option.mem_def.mpr heq.symm)
      rw [hax]
      exact List.getLast_mem hne
    exact (List.nodup_cons.mp h).1 hmem

/- ## Claim C6 -/

/-- Claim C6, as stated, is false at this concrete input: with the same
strategy outputs (hence the same discovered set), the same (empty) store
and budget `N = 1`, two runs whose shuffles realize two different
permutations of the filtered candidates produce two DIFFERENT truncated
lists — the identity permutation keeps the first candidate, reversal
keeps the second.  Truncation to `N` happens after `random.shuffle`. -/
theorem C6_counterexample :
    discoverFrontier emptyDb (discoveredUnion [["https://a", "https://b"]]) id 1
      = ["https://a"]
    ∧ discoverFrontier emptyDb (discoveredUnion [["https://a", "https://b"]]) List.reverse 1
      = ["https://b"]
    ∧ (["https://a"] : List String) ≠ ["https://b"]
    ∧ (discoveredUnion [["https://a", "https://b"]]).reverse.Perm
        (discoveredUnion [["https://a", "https://b"]]) := by
  refine ⟨by decide, by decide, by decide, by decide⟩

/-- Claim C6 amended: the truncated candidate list is NOT fixed given only
the strategy outputs and the store.  `discover_and_scrape` shuffles the
store-filtered candidate list BEFORE truncating to `max_profiles` (and
iterates an unordered set to build it), so randomness is retained at this
stage: whenever the store-filtered candidates (with distinct entries)
number more than `N ≥ 1`, two legitimate shuffle outcomes — the identity
and reversal, both permutations of the same list — yield different
truncated lists.  Determinism holds only once the set-iteration order and
the shuffle permutation are both fixed. -/
theorem C6_amended (db : ProfileDatabase) (ord : List String) (N : Nat)
    (hnd : ord.Nodup) (hN : 1 ≤ N)
    (hlen : N < (ord.filter (fun u => !db.is_scraped u)).length) :
    discoverFrontier db ord id N ≠ discoverFrontier db ord List.reverse N
    ∧ ∀ l : List String, l.reverse.Perm l := by
  constructor
  · intro heq
    have h1 : ((ord.filter (fun u => !db.is_scraped u)).take N).head?
        = ((ord.filter (fun u => !db.is_scraped u)).reverse.take N).head? := by
      simpa [discoverFrontier] using congrArg List.head? heq
    rw [head?_take_pos _ N hN, head?_take_pos _ N hN, List.head?_reverse] at h1
    exact nodup_head?_ne_getLast? _ (hnd.filter _) (by omega) h1
  · exact fun l => List.reverse_perm l

/-- Witness for the amended claim C6 at a concrete input. -/
theorem C6_amended_witness :
    (["https://a", "https://b"] : List String).Nodup
    ∧ 1 ≤ 1
    ∧ 1 < ((["https://a", "https://b"] : List String).filter
        (fun u => !emptyDb.is_scraped u)).length
    ∧ (discoverFrontier emptyDb ["https://a", "https://b"] id 1
        ≠ discoverFrontier emptyDb ["https://a", "https://b"] List.reverse 1
       ∧ ∀ l : List String, l.reverse.Perm l) :=
  ⟨by decide, by decide, by decide,
   C6_amended emptyDb ["https://a", "https://b"] 1 (by decide) (by decide) (by decide)⟩

/- ## Lemmas: dict update and key bookkeeping -/

lemma dictInsert_keys (l : List (String × ProfileData)) (k : String) (v : ProfileData) :
    (dictInsert l k v).map Prod.fst = insertAbsent (l.map Prod.fst) k := by
  unfold dictInsert insertAbsent
  by_cases hmem : k ∈ l.map Prod.fst
  · have hany : l.any (fun kv => kv.1 == k) = true := by
      rw [List.any_eq_true]
      obtain ⟨kv, hkv, hfst⟩ := List.mem_map.mp hmem
      exact ⟨kv, hkv, by simp [hfst]⟩
    rw [if_pos hany, if_pos hmem, List.map_map]
    refine List.map_congr_left ?_
    intro kv hkv
    by_cases hk : kv.1 = k
    · simp [hk]
    · simp [hk]
  · have hany : l.any (fun kv => kv.1 == k) = false := by
      rw [List.any_eq_false]
      intro kv hkv
      simp only [beq_iff_eq]
      intro hk
      exact hmem (List.mem_map.mpr ⟨kv, hkv, hk⟩)
    rw [if_neg (by simp [hany]), if_neg hmem, List.map_append]
    rfl

lemma lookup_map_overwrite (k : String) (v : ProfileData) (l : List (String × ProfileData))
    (hmem : k ∈ l.map Prod.fst) :
    List.lookup k (l.map (fun kv => if kv.1 == k then (k, v) else kv)) = some v := by
  induction l with
  | nil => simp at hmem
  | cons kv t ih =>
    obtain ⟨k1, v1⟩ := kv
    by_cases hk : k1 = k
    · subst hk
      simp [List.lookup_cons]
    · have hmem2 : k ∈ t.map Prod.fst := by
        simp only [List.map_cons, List.mem_cons] at hmem
        rcases hmem with h | h
        · exact absurd h.symm hk
        · exact h
      have hbk : ((k1, v1).1 == k) = false := by simpa using hk
      simp only [List.map_cons, hbk, Bool.false_eq_true, if_false, List.lookup_cons]
      rw [show (k == k1) = false from by simpa using fun h => hk h.symm]
      exact ih hmem2

lemma lookup_append_right (k : String) (v : ProfileData) (l : List (String × ProfileData))
    (hmem : k ∉ l.map Prod.fst) :
    List.lookup k (l ++ [(k, v)]) = some v := by
  induction l with
  | nil => simp [List.lookup]
  | cons kv t ih =>
    have hk : k ≠ kv.1 := by
      intro h
      exact hmem (List.mem_map.mpr ⟨kv, List.mem_cons_self kv t, h.symm⟩)
    have hmem2 : k ∉ t.map Prod.fst := fun h =>
      hmem (by rcases List.mem_map.mp h with ⟨kv2, hkv2, hfst⟩;
               exact List.mem_map.mpr ⟨kv2, List.mem_cons_of_mem kv hkv2, hfst⟩)
    simp only [List.cons_append, List.lookup, beq_eq_false_iff_ne.mpr hk]
    exact ih hmem2

lemma lookup_dictInsert (l : List (String × ProfileData)) (k : String) (v : ProfileData) :
    List.lookup k (dictInsert l k v) = some v := by
  unfold dictInsert
  by_cases hmem : k ∈ l.map Prod.fst
  · have hany : l.any (fun kv => kv.1 == k) = true := by
      rw [List.any_eq_true]
      obtain ⟨kv, hkv, hfst⟩ := List.mem_map.mp hmem
      exact ⟨kv, hkv, by simp [hfst]⟩
    rw [if_pos hany]
    exact lookup_map_overwrite k v l hmem
  · have hany : l.any (fun kv => kv.1 == k) = false := by
      rw [List.any_eq_false]
      intro kv hkv
      simp only [beq_iff_eq]
      intro hk
      exact hmem (List.mem_map.mpr ⟨kv, hkv, hk⟩)
    rw [if_neg (by simp [hany])]
    exact lookup_append_right k v l hmem

lemma add_profile_keys (db : ProfileDatabase) (p : Person) (now : String) :
    (db.add_profile p now).profiles.map Prod.fst
      = insertAbsent (db.profiles.map Prod.fst) (ProfileDatabase.normalize_url p.linkedin_url) :=
  dictInsert_keys db.profiles (ProfileDatabase.normalize_url p.linkedin_url) (profileDataOf p now)

lemma add_profile_scraped (db : ProfileDatabase) (p : Person) (now : String) :
    (db.add_profile p now).scraped_urls
      = insert (ProfileDatabase.normalize_url p.linkedin_url) db.scraped_urls := rfl

lemma mem_insertAbsent_self (ks : List String) (k : String) : k ∈ insertAbsent ks k := by
  unfold insertAbsent
  by_cases h : k ∈ ks
  · rwa [if_pos h]
  · rw [if_neg h]; simp

lemma foldl_add_keys (calls : List (Person × String)) :
    ∀ db : ProfileDatabase,
      ((calls.foldl (fun d pc => d.add_profile pc.1 pc.2) db).profiles.map Prod.fst)
        = (calls.map (fun pc => ProfileDatabase.normalize_url pc.1.linkedin_url)).foldl
            insertAbsent (db.profiles.map Prod.fst) := by
  induction calls with
  | nil => intro db; rfl
  | cons pc t ih =>
    intro db
    simp only [List.foldl_cons, List.map_cons]
    rw [ih, add_profile_keys]

lemma length_foldl_insertAbsent (l : List String) :
    ∀ ks : List String, ks.Nodup →
      (l.foldl insertAbsent ks).length = (ks.toFinset ∪ l.toFinset).card := by
  induction l with
  | nil =>
    intro ks h
    simp [List.toFinset_card_of_nodup h]
  | cons a t ih =>
    intro ks h
    simp only [List.foldl_cons]
    by_cases hmem : a ∈ ks
    · rw [show insertAbsent ks a = ks from by simp [insertAbsent, hmem]]
      rw [ih ks h]
      congr 1
      ext x
      simp only [Finset.mem_union, List.mem_toFinset, List.toFinset_cons, Finset.mem_insert]
      constructor
      · tauto
      · rintro (h1 | h1 | h1) <;> first | exact Or.inl (h1 ▸ hmem) | tauto
    · rw [show insertAbsent ks a = ks ++ [a] from by simp [insertAbsent, hmem]]
      have hnd : (ks ++ [a]).Nodup := by
        rw [List.nodup_append]
        exact ⟨h, List.nodup_singleton a, by simpa using hmem⟩
      rw [ih _ hnd]
      congr 1
      ext x
      simp only [Finset.mem_union, List.mem_toFinset, List.toFinset_cons, Finset.mem_insert,
        List.mem_append, List.mem_singleton]
      tauto

/- ## Claim C8 -/

/-- Claim C8 (confirmed): starting from the empty store, after any finite
sequence of `add_profile` calls the profile count equals the number of
DISTINCT normalized identifiers recorded (the card of their finite set,
which is invariant under reordering and duplication of calls; the second
conjunct exhibits the order-independence directly).  Recording the same
identifier twice is a no-op for deduplication: the key list, the known
set and the count are unchanged, and only the stored payload/timestamp is
overwritten (the lookup returns the newer record). -/
theorem C8_count_distinct :
    (∀ calls : List (Person × String),
      (calls.foldl (fun d pc => d.add_profile pc.1 pc.2) emptyDb).get_profile_count
        = (calls.map (fun pc => ProfileDatabase.normalize_url pc.1.linkedin_url)).toFinset.card)
    ∧ (∀ calls1 calls2 : List (Person × String),
      ((calls1 ++ calls2).foldl (fun d pc => d.add_profile pc.1 pc.2) emptyDb).get_profile_count
        = ((calls2 ++ calls1).foldl (fun d pc => d.add_profile pc.1 pc.2) emptyDb).get_profile_count)
    ∧ (∀ (db : ProfileDatabase) (url name1 now1 name2 now2 : String) (f1 f2 : PersonFields),
      (((db.add_profile ⟨url, name1, f1⟩ now1).add_profile ⟨url, name2, f2⟩ now2).profiles.map
          Prod.fst
        = (db.add_profile ⟨url, name1, f1⟩ now1).profiles.map Prod.fst)
      ∧ ((db.add_profile ⟨url, name1, f1⟩ now1).add_profile ⟨url, name2, f2⟩ now2).scraped_urls
        = (db.add_profile ⟨url, name1, f1⟩ now1).scraped_urls
      ∧ ((db.add_profile ⟨url, name1, f1⟩ now1).add_profile ⟨url, name2, f2⟩
          now2).get_profile_count
        = (db.add_profile ⟨url, name1, f1⟩ now1).get_profile_count
      ∧ List.lookup (ProfileDatabase.normalize_url url)
          (((db.add_profile ⟨url, name1, f1⟩ now1).add_profile ⟨url, name2, f2⟩ now2).profiles)
        = some (profileDataOf ⟨url, name2, f2⟩ now2)) := by
  have hcount : ∀ calls : List (Person × String),
      (calls.foldl (fun d pc => d.add_profile pc.1 pc.2) emptyDb).get_profile_count
        = (calls.map (fun pc => ProfileDatabase.normalize_url pc.1.linkedin_url)).toFinset.card := by
    intro calls
    have hkeys := foldl_add_keys calls emptyDb
    have hlen := length_foldl_insertAbsent
      (calls.map (fun pc => ProfileDatabase.normalize_url pc.1.linkedin_url))
      (emptyDb.profiles.map Prod.fst)
      (by simp [emptyDb, ProfileDatabase.init, ProfileDatabase.load_database])
    unfold ProfileDatabase.get_profile_count
    rw [← List.length_map _ Prod.fst, hkeys, hlen]
    simp [emptyDb, ProfileDatabase.init, ProfileDatabase.load_database]
  refine ⟨hcount, ?_, ?_⟩
  · intro calls1 calls2
    rw [hcount, hcount]
    congr 1
    simp only [List.map_append, List.toFinset_append]
    exact Finset.union_comm _ _
  · intro db url name1 now1 name2 now2 f1 f2
    have hkey : ProfileDatabase.normalize_url url
        ∈ (db.add_profile ⟨url, name1, f1⟩ now1).profiles.map Prod.fst := by
      rw [add_profile_keys]
      exact mem_insertAbsent_self _ _
    refine ⟨?_, ?_, ?_, ?_⟩
    · rw [add_profile_keys]
      simp only [insertAbsent]
      rw [if_pos hkey]
    · rw [add_profile_scraped, add_profile_scraped]
      exact Finset.insert_idem _ _
    · unfold ProfileDatabase.get_profile_count
      have : ((db.add_profile ⟨url, name1, f1⟩ now1).add_profile ⟨url, name2, f2⟩
          now2).profiles.map Prod.fst
          = (db.add_profile ⟨url, name1, f1⟩ now1).profiles.map Prod.fst := by
        rw [add_profile_keys]
        simp only [insertAbsent]
        rw [if_pos hkey]
      have hlen := congrArg List.length this
      simpa using hlen
    · exact lookup_dictInsert _ _ _

/- ## Lemmas: the store invariant -/

lemma dbInv_init (f : String) (fs : FileState)
    (h : ((ProfileDatabase.load_database fs).map Prod.fst).Nodup) :
    dbInv (ProfileDatabase.init f fs) := ⟨h, rfl⟩

lemma dbInv_add (db : ProfileDatabase) (p : Person) (now : String) (h : dbInv db) :
    dbInv (db.add_profile p now) := by
  obtain ⟨h1, h2⟩ := h
  constructor
  · rw [add_profile_keys]
    unfold insertAbsent
    by_cases hmem : ProfileDatabase.normalize_url p.linkedin_url ∈ db.profiles.map Prod.fst
    · rw [if_pos hmem]
      exact h1
    · rw [if_neg hmem, List.nodup_append]
      refine ⟨h1, List.nodup_singleton _, ?_⟩
      intro a ha hb
      rw [List.mem_singleton] at hb
      exact hmem (hb ▸ ha)
  · rw [add_profile_keys, add_profile_scraped, h2]
    unfold insertAbsent
    by_cases hmem : ProfileDatabase.normalize_url p.linkedin_url ∈ db.profiles.map Prod.fst
    · rw [if_pos hmem, Finset.insert_eq_self.mpr (List.mem_toFinset.mpr hmem)]
    · rw [if_neg hmem]
      ext x
      simp only [Finset.mem_insert, List.mem_toFinset, List.mem_append, List.mem_singleton]
      tauto

lemma dbInv_applyOp (db : ProfileDatabase) (op : DbOp) (h : dbInv db) :
    dbInv (db.applyOp op) := by
  cases op with
  | add p now => exact dbInv_add db p now h
  | check u => exact h
  | save => exact h
  | count => exact h

lemma dbInv_foldl (ops : List DbOp) :
    ∀ db : ProfileDatabase, dbInv db → dbInv (ops.foldl ProfileDatabase.applyOp db) := by
  induction ops with
  | nil => intro db h; exact h
  | cons op t ih => intro db h; exact ih _ (dbInv_applyOp db op h)

/- ## Claim C10 -/

/-- Claim C10 (confirmed): in every state reachable from the constructor
(over any storage file whose JSON object has distinct keys, as `json.load`
guarantees) by any interleaving of `add_profile`, `is_scraped`,
`save_database` and `get_profile_count`, the in-memory known set
`scraped_urls` equals the key set of `profiles`; hence `is_scraped u`
reports exactly whether `normalize_url u` is a key of `profiles`, and the
profile count equals the size of the known set. -/
theorem C10_scraped_urls_eq_keys (f : String) (fs : FileState) (ops : List DbOp) (u : String)
    (h : ((ProfileDatabase.load_database fs).map Prod.fst).Nodup) :
    (ops.foldl ProfileDatabase.applyOp (ProfileDatabase.init f fs)).scraped_urls
      = ((ops.foldl ProfileDatabase.applyOp
            (ProfileDatabase.init f fs)).profiles.map Prod.fst).toFinset
    ∧ (ops.foldl ProfileDatabase.applyOp (ProfileDatabase.init f fs)).is_scraped u
      = decide (ProfileDatabase.normalize_url u
          ∈ ((ops.foldl ProfileDatabase.applyOp
                (ProfileDatabase.init f fs)).profiles.map Prod.fst).toFinset)
    ∧ (ops.foldl ProfileDatabase.applyOp (ProfileDatabase.init f fs)).get_profile_count
      = (ops.foldl ProfileDatabase.applyOp (ProfileDatabase.init f fs)).scraped_urls.card := by
  obtain ⟨h1, h2⟩ := dbInv_foldl ops (ProfileDatabase.init f fs) (dbInv_init f fs h)
  refine ⟨h2, ?_, ?_⟩
  · unfold ProfileDatabase.is_scraped
    rw [h2]
  · rw [h2, List.toFinset_card_of_nodup h1]
    unfold ProfileDatabase.get_profile_count
    simp

/-- Witness for claim C10 at a concrete input. -/
theorem C10_witness :
    ((ProfileDatabase.load_database sampleFile).map Prod.fst).Nodup
    ∧ ((sampleOps.foldl ProfileDatabase.applyOp
          (ProfileDatabase.init "scraped_profiles.json" sampleFile)).scraped_urls
        = ((sampleOps.foldl ProfileDatabase.applyOp
              (ProfileDatabase.init "scraped_profiles.json" sampleFile)).profiles.map
            Prod.fst).toFinset
       ∧ (sampleOps.foldl ProfileDatabase.applyOp
            (ProfileDatabase.init "scraped_profiles.json" sampleFile)).is_scraped
            "https://www.linkedin.com/in/z"
        = decide (ProfileDatabase.normalize_url "https://www.linkedin.com/in/z"
            ∈ ((sampleOps.foldl ProfileDatabase.applyOp
                  (ProfileDatabase.init "scraped_profiles.json" sampleFile)).profiles.map
                Prod.fst).toFinset)
       ∧ (sampleOps.foldl ProfileDatabase.applyOp
            (ProfileDatabase.init "scraped_profiles.json" sampleFile)).get_profile_count
        = (sampleOps.foldl ProfileDatabase.applyOp
            (ProfileDatabase.init "scraped_profiles.json" sampleFile)).scraped_urls.card) :=
  ⟨by decide,
   C10_scraped_urls_eq_keys "scraped_profiles.json" sampleFile sampleOps
     "https://www.linkedin.com/in/z" (by decide)⟩

/- ## Lemmas: characters -/

lemma uint32_le_iff (a b : UInt32) : a ≤ b ↔ a.toNat ≤ b.toNat :=
  UInt32.le_def.trans BitVec.le_def

lemma isUpper_iff_toNat (c : Char) : c.isUpper = true ↔ 65 ≤ c.toNat ∧ c.toNat ≤ 90 := by
  simp only [Char.isUpper, Bool.and_eq_true, decide_eq_true_eq, GE.ge]
  rw [uint32_le_iff, uint32_le_iff]
  exact Iff.rfl

lemma isLower_iff_toNat (c : Char) : c.isLower = true ↔ 97 ≤ c.toNat ∧ c.toNat ≤ 122 := by
  simp only [Char.isLower, Bool.and_eq_true, decide_eq_true_eq, GE.ge]
  rw [uint32_le_iff, uint32_le_iff]
  exact Iff.rfl

lemma isDigit_iff_toNat (c : Char) : c.isDigit = true ↔ 48 ≤ c.toNat ∧ c.toNat ≤ 57 := by
  simp only [Char.isDigit, Bool.and_eq_true, decide_eq_true_eq, GE.ge]
  rw [uint32_le_iff, uint32_le_iff]
  exact Iff.rfl

lemma isAlpha_iff_toNat (c : Char) :
    c.isAlpha = true ↔ (65 ≤ c.toNat ∧ c.toNat ≤ 90) ∨ (97 ≤ c.toNat ∧ c.toNat ≤ 122) := by
  simp only [Char.isAlpha, Bool.or_eq_true, isUpper_iff_toNat, isLower_iff_toNat]

lemma char_eq_iff_toNat (c d : Char) : c = d ↔ c.toNat = d.toNat := by
  constructor
  · intro h; rw [h]
  · intro h; exact Char.ext (UInt32.toNat.inj h)

lemma isSchemeChar_iff_toNat (c : Char) :
    isSchemeChar c = true ↔
      (65 ≤ c.toNat ∧ c.toNat ≤ 90) ∨ (97 ≤ c.toNat ∧ c.toNat ≤ 122)
      ∨ (48 ≤ c.toNat ∧ c.toNat ≤ 57) ∨ c.toNat = 43 ∨ c.toNat = 45 ∨ c.toNat = 46 := by
  simp only [isSchemeChar, Bool.or_eq_true, beq_iff_eq, isAlpha_iff_toNat, isDigit_iff_toNat,
    char_eq_iff_toNat, show ('+').toNat = 43 from by decide,
    show ('-').toNat = 45 from by decide, show ('.').toNat = 46 from by decide]
  tauto

lemma isUnsafeUrlByte_iff_toNat (c : Char) :
    isUnsafeUrlByte c = true ↔ c.toNat = 9 ∨ c.toNat = 13 ∨ c.toNat = 10 := by
  simp only [isUnsafeUrlByte, Bool.or_eq_true, beq_iff_eq, char_eq_iff_toNat,
    show ('\t').toNat = 9 from by decide, show ('\x0d').toNat = 13 from by decide,
    show ('\n').toNat = 10 from by decide]
  tauto

lemma isC0ControlOrSpace_iff_toNat (c : Char) :
    isC0ControlOrSpace c = true ↔ c.toNat ≤ 32 := by
  simp only [isC0ControlOrSpace, decide_eq_true_eq]

lemma isNetlocDelim_iff_toNat (c : Char) :
    isNetlocDelim c = true ↔ c.toNat = 47 ∨ c.toNat = 63 ∨ c.toNat = 35 := by
  simp only [isNetlocDelim, Bool.or_eq_true, beq_iff_eq, char_eq_iff_toNat,
    show ('/').toNat = 47 from by decide, show ('?').toNat = 63 from by decide,
    show ('#').toNat = 35 from by decide]
  tauto

lemma toNat_toLower (c : Char) :
    (Char.toLower c).toNat = if 65 ≤ c.toNat ∧ c.toNat ≤ 90 then c.toNat + 32 else c.toNat := by
  unfold Char.toLower
  split
  · rename_i h
    have hv : (c.toNat + 32).isValidChar := Or.inl (by omega)
    rw [if_pos (by omega)]
    rw [Char.ofNat, dif_pos hv]
    rfl
  · rename_i h
    rw [if_neg (by omega)]

lemma schemeChar_toLower (c : Char) (h : isSchemeChar c = true) :
    isSchemeChar (Char.toLower c) = true := by
  rw [isSchemeChar_iff_toNat] at h ⊢
  rw [toNat_toLower]
  split <;> omega

lemma alpha_toLower (c : Char) (h : c.isAlpha = true) :
    (Char.toLower c).isAlpha = true := by
  rw [isAlpha_iff_toNat] at h ⊢
  rw [toNat_toLower]
  split <;> omega

lemma toLower_toLower (c : Char) :
    Char.toLower (Char.toLower c) = Char.toLower c := by
  rw [char_eq_iff_toNat, toNat_toLower, toNat_toLower]
  split_ifs <;> omega

lemma schemeChar_ne_colon (c : Char) (h : isSchemeChar c = true) : c ≠ ':' := by
  rw [isSchemeChar_iff_toNat] at h
  rw [Ne, char_eq_iff_toNat, show (':').toNat = 58 from by decide]
  omega

lemma schemeChar_not_unsafe (c : Char) (h : isSchemeChar c = true) :
    isUnsafeUrlByte c = false := by
  rw [isSchemeChar_iff_toNat] at h
  rw [← Bool.not_eq_true, isUnsafeUrlByte_iff_toNat]
  omega

lemma alpha_not_c0 (c : Char) (h : c.isAlpha = true) : isC0ControlOrSpace c = false := by
  rw [isAlpha_iff_toNat] at h
  rw [← Bool.not_eq_true, isC0ControlOrSpace_iff_toNat]
  omega

lemma toLower_schemeChar_ne (c : Char) (h : isSchemeChar c = true) :
    Char.toLower c ≠ ':' ∧ Char.toLower c ≠ '/' ∧ Char.toLower c ≠ '?'
    ∧ Char.toLower c ≠ '#' ∧ isUnsafeUrlByte (Char.toLower c) = false := by
  rw [isSchemeChar_iff_toNat] at h
  refine ⟨?_, ?_, ?_, ?_, ?_⟩
  · rw [Ne, char_eq_iff_toNat, toNat_toLower, show (':').toNat = 58 from by decide]
    split_ifs <;> omega
  · rw [Ne, char_eq_iff_toNat, toNat_toLower, show ('/').toNat = 47 from by decide]
    split_ifs <;> omega
  · rw [Ne, char_eq_iff_toNat, toNat_toLower, show ('?').toNat = 63 from by decide]
    split_ifs <;> omega
  · rw [Ne, char_eq_iff_toNat, toNat_toLower, show ('#').toNat = 35 from by decide]
    split_ifs <;> omega
  · rw [← Bool.not_eq_true, isUnsafeUrlByte_iff_toNat, toNat_toLower]
    split_ifs <;> omega

/- ## Lemmas: find, splitOnce, rstrip -/

lemma findChar_append_cons (c : Char) (a b : Chars) (ha : c ∉ a) :
    findChar c (a ++ c :: b) = some a.length := by
  induction a with
  | nil => simp [findChar]
  | cons x t ih =>
    have hx : x ≠ c := fun hxc => ha (hxc ▸ List.mem_cons_self x t)
    have ht : c ∉ t := fun hmem => ha (List.mem_cons_of_mem x hmem)
    simp only [List.cons_append, findChar, if_neg hx, List.append_eq, ih ht,
      Option.map_some, List.length_cons]
    rfl

lemma splitOnce_not_mem (ch : Char) (l : Chars) (h : ch ∉ l) : splitOnce ch l = (l, []) := by
  unfold splitOnce
  have hall : ∀ c ∈ l, (c != ch) = true := by
    intro c hc
    simp only [bne_iff_ne, ne_eq]
    exact fun hceq => h (hceq ▸ hc)
  rw [List.takeWhile_eq_self_iff.mpr hall, List.dropWhile_eq_nil_iff.mpr hall]
  rfl

lemma splitOnce_append (ch : Char) (a b : Chars) (ha : ch ∉ a) :
    splitOnce ch (a ++ ch :: b) = (a, b) := by
  unfold splitOnce
  have hall : ∀ c ∈ a, (c != ch) = true := by
    intro c hc
    simp only [bne_iff_ne, ne_eq]
    exact fun hceq => ha (hceq ▸ hc)
  rw [List.takeWhile_append_of_pos hall, List.dropWhile_append_of_pos hall]
  simp [List.takeWhile_cons, List.dropWhile_cons]

lemma dropWhile_eq_self_of_false (p : Char → Bool) (l : Chars) (h : ∀ c ∈ l, p c = false) :
    l.dropWhile p = l := by
  cases l with
  | nil => rfl
  | cons a t =>
    rw [List.dropWhile_cons, if_neg]
    rw [h a (List.mem_cons_self a t)]
    simp

lemma dropWhile_dropWhile (p : Char → Bool) (l : Chars) :
    (l.dropWhile p).dropWhile p = l.dropWhile p := by
  induction l with
  | nil => rfl
  | cons a t ih =>
    rw [List.dropWhile_cons]
    split
    · exact ih
    · rw [List.dropWhile_cons, if_neg (by assumption)]

lemma rstripSlashes_append_no_slash (a b : Chars) (ha : ∀ c ∈ a, c ≠ '/') :
    rstripSlashes (a ++ b) = a ++ rstripSlashes b := by
  have hfa : ∀ c ∈ a.reverse, (c == '/') = false := by
    intro c hc
    simpa using ha c (List.mem_reverse.mp hc)
  unfold rstripSlashes
  rw [List.reverse_append, List.dropWhile_append]
  split
  · rename_i hemp
    have hb : b.reverse.dropWhile (fun c => c == '/') = [] := by
      simpa [List.isEmpty_iff] using hemp
    rw [dropWhile_eq_self_of_false _ _ hfa, hb]
    simp
  · rw [List.reverse_append, List.reverse_reverse]

lemma rstripSlashes_append_slash (l : Chars) :
    rstripSlashes (l ++ ['/']) = rstripSlashes l := by
  unfold rstripSlashes
  rw [List.reverse_append]
  simp [List.dropWhile_cons]

lemma rstripSlashes_no_slash (l : Chars) (h : ∀ c ∈ l, c ≠ '/') : rstripSlashes l = l := by
  have h0 : rstripSlashes ([] : Chars) = [] := rfl
  have := rstripSlashes_append_no_slash l [] h
  simpa [h0] using this

lemma rstripSlashes_idem (l : Chars) : rstripSlashes (rstripSlashes l) = rstripSlashes l := by
  unfold rstripSlashes
  rw [List.reverse_reverse, dropWhile_dropWhile]

lemma rstripSlashes_suffix_fixed (x y : Chars) (h : rstripSlashes (x ++ y) = x ++ y) :
    rstripSlashes y = y := by
  cases hy : y.reverse with
  | nil =>
    have : y = [] := by simpa using congrArg List.reverse hy
    rw [this]
    rfl
  | cons c z =>
    have hdrop : ((x ++ y).reverse).dropWhile (fun c => c == '/') = (x ++ y).reverse := by
      have := congrArg List.reverse h
      rwa [rstripSlashes, List.reverse_reverse] at this
    rw [List.reverse_append, hy] at hdrop
    have hpc : (c == '/') = false := by
      by_contra hcontra
      rw [Bool.not_eq_false] at hcontra
      rw [List.cons_append, List.dropWhile_cons, if_pos hcontra] at hdrop
      have hlen := congrArg List.length hdrop
      have hle := (List.dropWhile_sublist (l := z ++ x.reverse) (fun c => c == '/')).length_le
      simp only [List.length_cons, List.length_append] at hlen hle
      omega
    rw [rstripSlashes, hy, List.dropWhile_cons, if_neg (by rw [hpc]; simp)]
    rw [← hy, List.reverse_reverse]

lemma takeWhile_congr_of_mem (p q : Char → Bool) (l : Chars) (h : ∀ c ∈ l, p c = q c) :
    l.takeWhile p = l.takeWhile q ∧ l.dropWhile p = l.dropWhile q := by
  induction l with
  | nil => exact ⟨rfl, rfl⟩
  | cons a t ih =>
    have ha := h a (List.mem_cons_self a t)
    have ht := ih fun c hc => h c (List.mem_cons_of_mem a hc)
    rw [List.takeWhile_cons, List.takeWhile_cons, List.dropWhile_cons, List.dropWhile_cons, ha]
    constructor
    · split
      · rw [ht.1]
      · rfl
    · split
      · exact ht.2
      · rfl

/- ## Lemmas: sanitization and scheme splitting -/

lemma lstripC0_cons_of_false (c : Char) (cs : Chars) (h : isC0ControlOrSpace c = false) :
    lstripC0 (c :: cs) = c :: cs := by
  simp [lstripC0, h]

lemma removeUnsafe_eq_self (l : Chars) (h : ∀ c ∈ l, isUnsafeUrlByte c = false) :
    removeUnsafe l = l :=
  List.filter_eq_self.mpr (fun a ha => by rw [h a ha]; rfl)

lemma sanitize_eq_self (u : Chars) (hu1 : isC0ControlOrSpace (u.headD ' ') = false)
    (hu2 : ∀ c ∈ u, isUnsafeUrlByte c = false) : removeUnsafe (lstripC0 u) = u := by
  cases u with
  | nil => rfl
  | cons c cs =>
    rw [lstripC0_cons_of_false c cs (by simpa using hu1)]
    exact removeUnsafe_eq_self _ hu2

lemma findChar_spec (c : Char) (l : Chars) (i : Nat) (h : findChar c l = some i) :
    i < l.length ∧ l.take i ++ c :: l.drop (i + 1) = l ∧ c ∉ l.take i := by
  induction l generalizing i with
  | nil => simp [findChar] at h
  | cons x t ih =>
    unfold findChar at h
    by_cases hx : x = c
    · rw [if_pos hx] at h
      injection h with h
      subst h
      subst hx
      simp
    · rw [if_neg hx] at h
      cases hfind : findChar c t with
      | none => rw [hfind] at h; simp at h
      | some j =>
        rw [hfind] at h
        simp only [Option.map_some', Option.some.injEq] at h
        subst h
        obtain ⟨hlt, hdec, hnm⟩ := ih j hfind
        refine ⟨by simpa using Nat.succ_lt_succ hlt, ?_, ?_⟩
        · simp only [List.take_succ_cons, List.drop_succ_cons, List.cons_append]
          rw [hdec]
        · simp only [List.take_succ_cons, List.mem_cons]
          rintro (hc | hc)
          · exact hx hc.symm
          · exact hnm hc

lemma headD_append_left (s r : Chars) (d : Char) (hs : s ≠ []) :
    (s ++ r).headD d = s.headD d := by
  cases s with
  | nil => exact absurd rfl hs
  | cons c cs => rfl

lemma headD_take_pos (l : Chars) (i : Nat) (d : Char) (hi : 0 < i) :
    (l.take i).headD d = l.headD d := by
  cases l with
  | nil => simp
  | cons x t =>
    cases i with
    | zero => omega
    | succ n => rfl

lemma splitScheme_append (s r : Chars) (hs1 : s ≠ [])
    (hs2 : (s.headD ' ').isAlpha = true)
    (hs3 : ∀ c ∈ s, isSchemeChar c = true) :
    splitScheme (s ++ ':' :: r) = (s.map Char.toLower, r) := by
  have hne : ':' ∉ s := fun hmem => schemeChar_ne_colon ':' (hs3 ':' hmem) rfl
  have hfind : findChar ':' (s ++ ':' :: r) = some s.length :=
    findChar_append_cons ':' s r hne
  have hpos : 0 < s.length := List.length_pos.mpr hs1
  have htake : (s ++ ':' :: r).take s.length = s := List.take_left s (':' :: r)
  have hcond : 0 < s.length ∧ ((s ++ ':' :: r).headD ' ').isAlpha = true
      ∧ ((s ++ ':' :: r).take s.length).all isSchemeChar = true := by
    refine ⟨hpos, ?_, ?_⟩
    · rw [headD_append_left s (':' :: r) ' ' hs1]
      exact hs2
    · rw [htake]
      exact List.all_eq_true.mpr hs3
  have hdrop : (s ++ ':' :: r).drop (s.length + 1) = r := by
    rw [show s ++ ':' :: r = (s ++ [':']) ++ r from by simp, List.drop_left' (by simp)]
  unfold splitScheme
  rw [hfind]
  simp only [Option.getD_some]
  rw [if_pos hcond, htake, hdrop]

/- ## Lemmas: netloc splitting over assembled URLs -/

lemma head_dropWhile_false (p : Char → Bool) (l : Chars) (x : Char) (xs : Chars)
    (h : l.dropWhile p = x :: xs) : p x = false := by
  induction l with
  | nil => simp [List.dropWhile] at h
  | cons a t ih =>
    rw [List.dropWhile_cons] at h
    split at h
    · exact ih h
    · cases h
      rename_i hpa
      simpa using hpa

lemma nd_congr_on_P (P : Chars) (hP : ∀ c ∈ P, c ≠ '?' ∧ c ≠ '#') :
    ∀ c ∈ P, (!isNetlocDelim c) = (c != '/') := by
  intro c hc
  obtain ⟨h1, h2⟩ := hP c hc
  simp only [isNetlocDelim, bne, Bool.not_or]
  rw [beq_eq_false_iff_ne.mpr h1, beq_eq_false_iff_ne.mpr h2]
  simp

lemma takeWhile_nd_assembled (P q : Chars) (useq : Bool)
    (hP : ∀ c ∈ P, c ≠ '?' ∧ c ≠ '#') :
    (P ++ (if useq then '?' :: q else [])).takeWhile (fun c => !isNetlocDelim c)
      = P.takeWhile (fun c => c != '/')
    ∧ (P ++ (if useq then '?' :: q else [])).dropWhile (fun c => !isNetlocDelim c)
      = P.dropWhile (fun c => c != '/') ++ (if useq then '?' :: q else []) := by
  have hcongr := takeWhile_congr_of_mem (fun c => !isNetlocDelim c) (fun c => c != '/') P
    (nd_congr_on_P P hP)
  cases useq with
  | false =>
    rw [show (if (false : Bool) = true then '?' :: q else []) = [] from rfl,
      List.append_nil, List.append_nil]
    exact hcongr
  | true =>
    rw [show (if (true : Bool) = true then '?' :: q else []) = '?' :: q from rfl]
    by_cases hsl : '/' ∈ P
    · have hdw : P.dropWhile (fun c => c != '/') ≠ [] := by
        intro hnil
        rw [List.dropWhile_eq_nil_iff] at hnil
        have := hnil '/' hsl
        simp at this
      obtain ⟨x, xs, hxxs⟩ : ∃ x xs, P.dropWhile (fun c => c != '/') = x :: xs := by
        cases hD : P.dropWhile (fun c => c != '/') with
        | nil => exact absurd hD hdw
        | cons y ys => exact ⟨y, ys, rfl⟩
      have hx : x = '/' := by
        have := head_dropWhile_false _ P x xs hxxs
        simpa using this
      subst hx
      have hAtrue : ∀ c ∈ P.takeWhile (fun c => c != '/'), (!isNetlocDelim c) = true := by
        intro c hc
        have hcP : c ∈ P := List.takeWhile_subset _ hc
        rw [nd_congr_on_P P hP c hcP]
        have h6 := List.mem_takeWhile_imp hc
        simpa using h6
      have hdecomp : P = P.takeWhile (fun c => c != '/') ++ '/' :: xs := by
        conv_lhs => rw [← List.takeWhile_append_dropWhile (fun c => c != '/') P]
        rw [hxxs]
      constructor
      · conv_lhs => rw [hdecomp]
        rw [List.append_assoc, List.cons_append, List.takeWhile_append_of_pos hAtrue,
          List.takeWhile_cons]
        simp [show (!isNetlocDelim '/') = false from by decide]
      · conv_lhs => rw [hdecomp]
        rw [List.append_assoc, List.cons_append, List.dropWhile_append_of_pos hAtrue,
          List.dropWhile_cons, hxxs]
        simp [show (!isNetlocDelim '/') = false from by decide]
    · have hall : ∀ c ∈ P, (c != '/') = true := by
        intro c hc
        simp only [bne_iff_ne, ne_eq]
        exact fun hEq => hsl (hEq ▸ hc)
      have hallnd : ∀ c ∈ P, (!isNetlocDelim c) = true := by
        intro c hc
        rw [nd_congr_on_P P hP c hc]
        exact hall c hc
      constructor
      · rw [List.takeWhile_append_of_pos hallnd, List.takeWhile_eq_self_iff.mpr hall,
          List.takeWhile_cons]
        simp [show (!isNetlocDelim '?') = false from by decide]
      · rw [List.dropWhile_append_of_pos hallnd, List.dropWhile_eq_nil_iff.mpr hall,
          List.dropWhile_cons]
        simp [show (!isNetlocDelim '?') = false from by decide]

/- ## The parse of an assembled URL -/

lemma urlsplit_assembled_core (s hst P qt qres : Chars)
    (hs1 : s ≠ []) (hs2 : (s.headD ' ').isAlpha = true)
    (hs3 : ∀ c ∈ s, isSchemeChar c = true)
    (hh : ∀ c ∈ hst, isNetlocDelim c = false ∧ isUnsafeUrlByte c = false)
    (hP : ∀ c ∈ P, c ≠ '?' ∧ c ≠ '#' ∧ isUnsafeUrlByte c = false)
    (hqt : ∀ c ∈ qt, c ≠ '#' ∧ isUnsafeUrlByte c = false)
    (htw : (P ++ qt).takeWhile (fun c => !isNetlocDelim c)
      = P.takeWhile (fun c => c != '/'))
    (hdw : (P ++ qt).dropWhile (fun c => !isNetlocDelim c)
      = P.dropWhile (fun c => c != '/') ++ qt)
    (hsp : splitOnce '?' (P.dropWhile (fun c => c != '/') ++ qt)
      = (P.dropWhile (fun c => c != '/'), qres)) :
    urlsplitChars (s ++ ':' :: '/' :: '/' :: (hst ++ P ++ qt)) =
      ⟨s.map Char.toLower,
       hst ++ P.takeWhile (fun c => c != '/'),
       P.dropWhile (fun c => c != '/'), qres, []⟩ := by
  have hsan : removeUnsafe (lstripC0 (s ++ ':' :: '/' :: '/' :: (hst ++ P ++ qt)))
      = s ++ ':' :: '/' :: '/' :: (hst ++ P ++ qt) := by
    apply sanitize_eq_self
    · rw [headD_append_left _ _ _ hs1]
      exact alpha_not_c0 _ hs2
    · intro c hc
      rcases List.mem_append.mp hc with h | h
      · exact schemeChar_not_unsafe c (hs3 c h)
      · rcases List.mem_cons.mp h with h | h
        · subst h; decide
        · rcases List.mem_cons.mp h with h | h
          · subst h; decide
          · rcases List.mem_cons.mp h with h | h
            · subst h; decide
            · rcases List.mem_append.mp h with h | h
              · rcases List.mem_append.mp h with h | h
                · exact (hh c h).2
                · exact (hP c h).2.2
              · exact (hqt c h).2
  have hfragmem : '#' ∉ P.dropWhile (fun c => c != '/') ++ qt := by
    intro hmem
    rcases List.mem_append.mp hmem with h | h
    · have hsub : '#' ∈ P := List.dropWhile_subset _ h
      exact (hP '#' hsub).2.1 rfl
    · exact (hqt '#' h).1 rfl
  have hstall : ∀ c ∈ hst, (fun c => !isNetlocDelim c) c = true := by
    intro c hc
    show (!isNetlocDelim c) = true
    rw [(hh c hc).1]
    rfl
  unfold urlsplitChars
  rw [hsan]
  dsimp only
  rw [splitScheme_append s _ hs1 hs2 hs3]
  dsimp only
  rw [if_pos (show List.take 2 ('/' :: '/' :: (hst ++ P ++ qt)) = ['/', '/'] from rfl)]
  unfold splitNetloc
  dsimp only
  rw [show ('/' :: '/' :: (hst ++ P ++ qt)).drop 2 = hst ++ P ++ qt from rfl]
  rw [List.append_assoc, List.takeWhile_append_of_pos hstall,
    List.dropWhile_append_of_pos hstall, htw, hdw]
  rw [splitOnce_not_mem '#' _ hfragmem]
  dsimp only
  rw [hsp]

lemma urlsplit_assembled (s hst P q : Chars) (useq : Bool)
    (hs1 : s ≠ []) (hs2 : (s.headD ' ').isAlpha = true)
    (hs3 : ∀ c ∈ s, isSchemeChar c = true)
    (hh : ∀ c ∈ hst, isNetlocDelim c = false ∧ isUnsafeUrlByte c = false)
    (hP : ∀ c ∈ P, c ≠ '?' ∧ c ≠ '#' ∧ isUnsafeUrlByte c = false)
    (hq : ∀ c ∈ q, c ≠ '#' ∧ isUnsafeUrlByte c = false) :
    urlsplitChars (s ++ ':' :: '/' :: '/' :: (hst ++ P ++ (if useq then '?' :: q else []))) =
      ⟨s.map Char.toLower,
       hst ++ P.takeWhile (fun c => c != '/'),
       P.dropWhile (fun c => c != '/'), if useq then q else [], []⟩ := by
  have hP2 : ∀ c ∈ P, c ≠ '?' ∧ c ≠ '#' := fun c hc => ⟨(hP c hc).1, (hP c hc).2.1⟩
  have hnd := takeWhile_nd_assembled P q useq hP2
  have hquestion : '?' ∉ P.dropWhile (fun c => c != '/') := by
    intro hmem
    exact (hP '?' (List.dropWhile_subset _ hmem)).1 rfl
  cases useq with
  | false =>
    rw [show (if (false : Bool) = true then '?' :: q else []) = [] from rfl] at hnd ⊢
    refine urlsplit_assembled_core s hst P [] [] hs1 hs2 hs3 hh hP (by simp) hnd.1 hnd.2 ?_
    rw [List.append_nil]
    exact splitOnce_not_mem '?' _ hquestion
  | true =>
    rw [show (if (true : Bool) = true then '?' :: q else []) = '?' :: q from rfl] at hnd ⊢
    refine urlsplit_assembled_core s hst P ('?' :: q) q hs1 hs2 hs3 hh hP ?_ hnd.1 hnd.2 ?_
    · intro c hc
      rcases List.mem_cons.mp hc with h | h
      · subst h
        exact ⟨by decide, by decide⟩
      · exact hq c h
    · exact splitOnce_append '?' _ q hquestion

lemma mem_rstripSlashes_subset (l : Chars) : ∀ c ∈ rstripSlashes l, c ∈ l := by
  intro c hc
  unfold rstripSlashes at hc
  rw [List.mem_reverse] at hc
  exact List.mem_reverse.mp (List.dropWhile_subset _ hc)

lemma normalize_assembled (s hst P q : Chars) (useq : Bool)
    (hs1 : s ≠ []) (hs2 : (s.headD ' ').isAlpha = true)
    (hs3 : ∀ c ∈ s, isSchemeChar c = true)
    (hh : ∀ c ∈ hst, isNetlocDelim c = false ∧ isUnsafeUrlByte c = false)
    (hP : ∀ c ∈ P, c ≠ '?' ∧ c ≠ '#' ∧ c ≠ ';' ∧ isUnsafeUrlByte c = false)
    (hq : ∀ c ∈ q, c ≠ '#' ∧ isUnsafeUrlByte c = false) :
    normalizeChars (s ++ ':' :: '/' :: '/' :: (hst ++ P ++ (if useq then '?' :: q else []))) =
      s.map Char.toLower ++ [':', '/', '/'] ++ (hst ++ P.takeWhile (fun c => c != '/'))
        ++ rstripSlashes (P.dropWhile (fun c => c != '/')) := by
  have hP3 : ∀ c ∈ P, c ≠ '?' ∧ c ≠ '#' ∧ isUnsafeUrlByte c = false :=
    fun c hc => ⟨(hP c hc).1, (hP c hc).2.1, (hP c hc).2.2.2⟩
  have hsplit := urlsplit_assembled s hst P q useq hs1 hs2 hs3 hh hP3 hq
  have hne : s ++ ':' :: '/' :: '/' :: (hst ++ P ++ (if useq then '?' :: q else [])) ≠ [] := by
    cases s with
    | nil => exact absurd rfl hs1
    | cons a t => simp
  have hsemi : ';' ∉ P.dropWhile (fun c => c != '/') := fun hmem =>
    (hP ';' (List.dropWhile_subset _ hmem)).2.2.1 rfl
  have hqmem : '?' ∉ s.map Char.toLower ++ [':', '/', '/']
      ++ (hst ++ P.takeWhile (fun c => c != '/'))
      ++ rstripSlashes (P.dropWhile (fun c => c != '/')) := by
    intro hmem
    rcases List.mem_append.mp hmem with h | h
    · rcases List.mem_append.mp h with h | h
      · rcases List.mem_append.mp h with h | h
        · obtain ⟨c, hcs, hlow⟩ := List.mem_map.mp h
          exact (toLower_schemeChar_ne c (hs3 c hcs)).2.2.1 hlow
        · rcases List.mem_cons.mp h with h | h
          · exact absurd h (by decide)
          · rcases List.mem_cons.mp h with h | h
            · exact absurd h (by decide)
            · rcases List.mem_cons.mp h with h | h
              · exact absurd h (by decide)
              · simp at h
      · rcases List.mem_append.mp h with h | h
        · have := (hh '?' h).1
          exact absurd this (by decide)
        · exact (hP '?' (List.takeWhile_subset _ h)).1 rfl
    · exact (hP '?' (List.dropWhile_subset _ (mem_rstripSlashes_subset _ '?' h))).1 rfl
  have hparams : ¬(List.map Char.toLower s ∈ usesParams
      ∧ ';' ∈ List.dropWhile (fun c => c != '/') P) := fun hcond => hsemi hcond.2
  unfold normalizeChars
  rw [if_neg hne]
  unfold urlparseChars
  rw [hsplit]
  dsimp only
  rw [if_neg hparams]
  dsimp only
  rw [if_neg hqmem]

lemma slashlike_take_drop (X : Chars) (hstart : X = [] ∨ X.headD ' ' = '/') :
    X.takeWhile (fun c => c != '/') = [] ∧ X.dropWhile (fun c => c != '/') = X := by
  rcases hstart with h | h
  · subst h
    exact ⟨rfl, rfl⟩
  · cases X with
    | nil => exact ⟨rfl, rfl⟩
    | cons a t =>
      have ha : a = '/' := by simpa using h
      subst ha
      rw [List.takeWhile_cons, List.dropWhile_cons]
      simp

/-- Claim C3, as stated, is false at this concrete input: the source
normalization strips ALL trailing path separators, not exactly one.  On
`http://h/a//` the code yields `http://h/a`, while the spec's
strip-exactly-one rule (`normalizeSpecOneSlash`) yields `http://h/a/`. -/
theorem C3_counterexample :
    ProfileDatabase.normalize_url "http://h/a//" = "http://h/a"
    ∧ normalizeSpecOneSlash "http://h/a//" = "http://h/a/"
    ∧ ("http://h/a" : String) ≠ "http://h/a/" := by
  refine ⟨by decide, by decide, by decide⟩

/-- Claim C3 amended: for every raw reference assembled as
`scheme://host<path>` (scheme a valid scheme token, host free of
delimiters, path empty or slash-led and free of `?`, `#`, `;` and
unsafe bytes, query free of `#`), normalization splits off the scheme
(lower-cased) and host, discards the query entirely, strips ALL trailing
path separators (not exactly one), and reassembles `scheme://host/path`;
consequently two references differing only by a trailing slash or only
by a query string normalize to the same identifier. -/
theorem C3_amended (s hst path q : Chars)
    (hs1 : s ≠ []) (hs2 : (s.headD ' ').isAlpha = true)
    (hs3 : ∀ c ∈ s, isSchemeChar c = true)
    (hh : ∀ c ∈ hst, isNetlocDelim c = false ∧ isUnsafeUrlByte c = false)
    (hP : ∀ c ∈ path, c ≠ '?' ∧ c ≠ '#' ∧ c ≠ ';' ∧ isUnsafeUrlByte c = false)
    (hq : ∀ c ∈ q, c ≠ '#' ∧ isUnsafeUrlByte c = false)
    (hstart : path = [] ∨ path.headD ' ' = '/') :
    normalizeChars (s ++ ':' :: '/' :: '/' :: (hst ++ path))
      = s.map Char.toLower ++ [':', '/', '/'] ++ hst ++ rstripSlashes path
    ∧ normalizeChars (s ++ ':' :: '/' :: '/' :: (hst ++ (path ++ ['/'])))
      = normalizeChars (s ++ ':' :: '/' :: '/' :: (hst ++ path))
    ∧ normalizeChars (s ++ ':' :: '/' :: '/' :: (hst ++ path ++ '?' :: q))
      = normalizeChars (s ++ ':' :: '/' :: '/' :: (hst ++ path)) := by
  obtain ⟨htake, hdrop⟩ := slashlike_take_drop path hstart
  have hP2 : ∀ c ∈ path ++ ['/'], c ≠ '?' ∧ c ≠ '#' ∧ c ≠ ';' ∧ isUnsafeUrlByte c = false := by
    intro c hc
    rcases List.mem_append.mp hc with h | h
    · exact hP c h
    · rw [List.mem_singleton] at h
      subst h
      refine ⟨by decide, by decide, by decide, by decide⟩
  have hstart2 : path ++ ['/'] = [] ∨ (path ++ ['/']).headD ' ' = '/' := by
    rcases hstart with h | h
    · subst h
      right
      rfl
    · cases path with
      | nil => right; rfl
      | cons a t =>
        right
        rw [headD_append_left _ _ _ (by simp)]
        exact h
  obtain ⟨htake2, hdrop2⟩ := slashlike_take_drop (path ++ ['/']) hstart2
  have h1 := normalize_assembled s hst path q false hs1 hs2 hs3 hh hP hq
  rw [show (if (false : Bool) = true then '?' :: q else []) = [] from rfl,
    List.append_nil, htake, hdrop, List.append_nil] at h1
  have hbase : normalizeChars (s ++ ':' :: '/' :: '/' :: (hst ++ path))
      = s.map Char.toLower ++ [':', '/', '/'] ++ hst ++ rstripSlashes path := h1
  refine ⟨hbase, ?_, ?_⟩
  · have h2 := normalize_assembled s hst (path ++ ['/']) q false hs1 hs2 hs3 hh hP2 hq
    rw [show (if (false : Bool) = true then '?' :: q else []) = [] from rfl,
      List.append_nil, htake2, hdrop2, List.append_nil] at h2
    rw [h2, hbase, rstripSlashes_append_slash]
  · have h3 := normalize_assembled s hst path q true hs1 hs2 hs3 hh hP hq
    rw [show (if (true : Bool) = true then '?' :: q else []) = '?' :: q from rfl,
      htake, hdrop, List.append_nil] at h3
    rw [List.append_assoc] at h3 ⊢
    rw [h3, hbase]

/-- Witness for the amended claim C3 at a concrete input
(`https://www.linkedin.com/in/a` with query `x=1`). -/
theorem C3_amended_witness :
    (('h' :: 't' :: 't' :: 'p' :: 's' :: []) ≠ ([] : Chars))
    ∧ ((('h' :: 't' :: 't' :: 'p' :: 's' :: []) : Chars).headD ' ').isAlpha = true
    ∧ (∀ c ∈ (('h' :: 't' :: 't' :: 'p' :: 's' :: []) : Chars), isSchemeChar c = true)
    ∧ (∀ c ∈ ("www.linkedin.com".toList : Chars),
        isNetlocDelim c = false ∧ isUnsafeUrlByte c = false)
    ∧ (∀ c ∈ ("/in/a".toList : Chars),
        c ≠ '?' ∧ c ≠ '#' ∧ c ≠ ';' ∧ isUnsafeUrlByte c = false)
    ∧ (∀ c ∈ ("x=1".toList : Chars), c ≠ '#' ∧ isUnsafeUrlByte c = false)
    ∧ ("/in/a".toList = [] ∨ ("/in/a".toList).headD ' ' = '/')
    ∧ (normalizeChars (('h' :: 't' :: 't' :: 'p' :: 's' :: []) ++ ':' :: '/' :: '/' ::
          ("www.linkedin.com".toList ++ "/in/a".toList))
        = ('h' :: 't' :: 't' :: 'p' :: 's' :: []).map Char.toLower ++ [':', '/', '/']
          ++ "www.linkedin.com".toList ++ rstripSlashes "/in/a".toList
       ∧ normalizeChars (('h' :: 't' :: 't' :: 'p' :: 's' :: []) ++ ':' :: '/' :: '/' ::
          ("www.linkedin.com".toList ++ ("/in/a".toList ++ ['/'])))
        = normalizeChars (('h' :: 't' :: 't' :: 'p' :: 's' :: []) ++ ':' :: '/' :: '/' ::
          ("www.linkedin.com".toList ++ "/in/a".toList))
       ∧ normalizeChars (('h' :: 't' :: 't' :: 'p' :: 's' :: []) ++ ':' :: '/' :: '/' ::
          ("www.linkedin.com".toList ++ "/in/a".toList ++ '?' :: "x=1".toList))
        = normalizeChars (('h' :: 't' :: 't' :: 'p' :: 's' :: []) ++ ':' :: '/' :: '/' ::
          ("www.linkedin.com".toList ++ "/in/a".toList))) :=
  ⟨by decide, by decide, by decide, by decide, by decide, by decide, by decide,
   C3_amended ('h' :: 't' :: 't' :: 'p' :: 's' :: []) "www.linkedin.com".toList
     "/in/a".toList "x=1".toList (by decide) (by decide) (by decide) (by decide)
     (by decide) (by decide) (by decide)⟩

/- ## Well-formedness of parse results (for idempotence) -/

lemma splitScheme_cases (url : Chars) :
    splitScheme url = ([], url)
    ∨ ∃ raw rest, url = raw ++ ':' :: rest ∧ raw ≠ []
        ∧ (raw.headD ' ').isAlpha = true ∧ (∀ c ∈ raw, isSchemeChar c = true)
        ∧ splitScheme url = (raw.map Char.toLower, rest) := by
  by_cases hcond : 0 < (findChar ':' url).getD 0 ∧ (url.headD ' ').isAlpha = true
      ∧ (url.take ((findChar ':' url).getD 0)).all isSchemeChar = true
  · right
    obtain ⟨h0, hhead, hall⟩ := hcond
    cases hfind : findChar ':' url with
    | none => rw [hfind] at h0; simp at h0
    | some i =>
      rw [hfind] at h0 hall
      simp only [Option.getD_some] at h0 hall
      obtain ⟨hlt, hdec, hnm⟩ := findChar_spec ':' url i hfind
      refine ⟨url.take i, url.drop (i + 1), hdec.symm, ?_, ?_, ?_, ?_⟩
      · intro hnil
        have hlen := congrArg List.length hnil
        rw [List.length_take] at hlen
        simp only [List.length_nil] at hlen
        omega
      · rw [headD_take_pos url i ' ' h0]
        exact hhead
      · exact fun c hc => List.all_eq_true.mp hall c hc
      · unfold splitScheme
        rw [hfind]
        simp only [Option.getD_some]
        rw [if_pos ⟨h0, hhead, hall⟩]
  · left
    unfold splitScheme
    rw [if_neg hcond]

lemma mem_removeUnsafe_not (c : Char) (l : Chars) (h : c ∈ removeUnsafe l) :
    isUnsafeUrlByte c = false := by
  unfold removeUnsafe at h
  simpa using (List.mem_filter.mp h).2

lemma splitScheme_snd_subset (url : Chars) : ∀ c ∈ (splitScheme url).2, c ∈ url := by
  intro c hc
  rcases splitScheme_cases url with h | ⟨raw, rest, hurl, _, _, _, heq⟩
  · rwa [h] at hc
  · rw [heq] at hc
    rw [hurl]
    exact List.mem_append.mpr (Or.inr (List.mem_cons_of_mem ':' hc))

lemma urlsplit_netloc_wf (u : Chars) :
    ∀ c ∈ (urlsplitChars u).netloc,
      isNetlocDelim c = false ∧ c ∈ removeUnsafe (lstripC0 u) := by
  intro c hc
  unfold urlsplitChars at hc
  dsimp only at hc
  split at hc
  · constructor
    · have h1 := List.mem_takeWhile_imp hc
      simpa using h1
    · have h2 : c ∈ ((splitScheme (removeUnsafe (lstripC0 u))).2.drop 2) :=
        List.takeWhile_subset _ hc
      exact splitScheme_snd_subset _ c (List.drop_subset _ _ h2)
  · simp at hc

lemma urlsplit_path_wf (u : Chars) :
    ∀ c ∈ (urlsplitChars u).path,
      c ≠ '?' ∧ c ≠ '#' ∧ c ∈ removeUnsafe (lstripC0 u) := by
  intro c hc
  unfold urlsplitChars at hc
  dsimp only [splitOnce] at hc
  have hq := List.mem_takeWhile_imp hc
  have hc2 : c ∈ (List.takeWhile (fun c => c != '#')
      (if ((splitScheme (removeUnsafe (lstripC0 u))).2.take 2) = ['/', '/'] then
          splitNetloc (splitScheme (removeUnsafe (lstripC0 u))).2
        else ([], (splitScheme (removeUnsafe (lstripC0 u))).2)).2) :=
    List.takeWhile_subset _ hc
  have hh := List.mem_takeWhile_imp hc2
  refine ⟨by simpa using hq, by simpa using hh, ?_⟩
  have hc3 : c ∈ (if ((splitScheme (removeUnsafe (lstripC0 u))).2.take 2) = ['/', '/'] then
      splitNetloc (splitScheme (removeUnsafe (lstripC0 u))).2
    else ([], (splitScheme (removeUnsafe (lstripC0 u))).2)).2 :=
    List.takeWhile_subset _ hc2
  split at hc3
  · unfold splitNetloc at hc3
    dsimp only at hc3
    exact splitScheme_snd_subset _ c (List.drop_subset _ _ (List.dropWhile_subset _ hc3))
  · exact splitScheme_snd_subset _ c hc3

lemma urlsplit_scheme_wf (u : Chars) (hs : (urlsplitChars u).scheme ≠ []) :
    ((urlsplitChars u).scheme.headD ' ').isAlpha = true
    ∧ (∀ c ∈ (urlsplitChars u).scheme, isSchemeChar c = true)
    ∧ (urlsplitChars u).scheme.map Char.toLower = (urlsplitChars u).scheme := by
  have hval : (urlsplitChars u).scheme = (splitScheme (removeUnsafe (lstripC0 u))).1 := rfl
  rcases splitScheme_cases (removeUnsafe (lstripC0 u)) with h |
    ⟨raw, rest, hurl, hraw1, hraw2, hraw3, heq⟩
  · rw [hval, h] at hs
    exact absurd rfl hs
  · rw [hval, heq]
    dsimp only
    refine ⟨?_, ?_, ?_⟩
    · cases raw with
      | nil => exact absurd rfl hraw1
      | cons a t =>
        simp only [List.map_cons, List.headD_cons]
        exact alpha_toLower a (by simpa using hraw2)
    · intro c hc
      obtain ⟨d, hd, hdc⟩ := List.mem_map.mp hc
      rw [← hdc]
      exact schemeChar_toLower d (hraw3 d hd)
    · rw [List.map_map]
      exact List.map_congr_left fun d hd => toLower_toLower d

lemma schemeChar_ne_question (c : Char) (h : isSchemeChar c = true) : c ≠ '?' := by
  intro hc
  subst hc
  exact absurd h (by decide)

lemma normalize_of_scheme_ne (u : Chars)
    (hs : (urlsplitChars u).scheme ≠ []) (hsemi : ';' ∉ (urlsplitChars u).path) :
    normalizeChars u = (urlsplitChars u).scheme ++ [':', '/', '/'] ++ (urlsplitChars u).netloc
      ++ rstripSlashes (urlsplitChars u).path := by
  have hne : u ≠ [] := by
    intro h
    rw [h] at hs
    exact hs rfl
  have hqmem : '?' ∉ (urlsplitChars u).scheme ++ [':', '/', '/'] ++ (urlsplitChars u).netloc
      ++ rstripSlashes (urlsplitChars u).path := by
    intro hmem
    rcases List.mem_append.mp hmem with h | h
    · rcases List.mem_append.mp h with h | h
      · rcases List.mem_append.mp h with h | h
        · exact schemeChar_ne_question '?' ((urlsplit_scheme_wf u hs).2.1 '?' h) rfl
        · rcases List.mem_cons.mp h with h | h
          · exact absurd h (by decide)
          · rcases List.mem_cons.mp h with h | h
            · exact absurd h (by decide)
            · rcases List.mem_cons.mp h with h | h
              · exact absurd h (by decide)
              · simp at h
      · exact absurd (urlsplit_netloc_wf u '?' h).1 (by decide)
    · exact (urlsplit_path_wf u '?' (mem_rstripSlashes_subset _ '?' h)).1 rfl
  have hparams : ¬((urlsplitChars u).scheme ∈ usesParams
      ∧ ';' ∈ (urlsplitChars u).path) := fun hcond => hsemi hcond.2
  unfold normalizeChars
  rw [if_neg hne]
  unfold urlparseChars
  dsimp only
  rw [if_neg hparams]
  dsimp only
  rw [if_neg hqmem]

lemma normalizeChars_idem_of_scheme (u : Chars) (hs : (urlsplitChars u).scheme ≠ [])
    (hsemi : ';' ∉ (urlsplitChars u).path) :
    normalizeChars (normalizeChars u) = normalizeChars u := by
  obtain ⟨hS2, hS3, hSlow⟩ := urlsplit_scheme_wf u hs
  have hN := urlsplit_netloc_wf u
  have hPth := urlsplit_path_wf u
  have h1 := normalize_of_scheme_ne u hs hsemi
  have hNchars : ∀ c ∈ (urlsplitChars u).netloc,
      isNetlocDelim c = false ∧ isUnsafeUrlByte c = false :=
    fun c hc => ⟨(hN c hc).1, mem_removeUnsafe_not c _ (hN c hc).2⟩
  have hRchars : ∀ c ∈ rstripSlashes (urlsplitChars u).path,
      c ≠ '?' ∧ c ≠ '#' ∧ c ≠ ';' ∧ isUnsafeUrlByte c = false := by
    intro c hc
    have hcp := mem_rstripSlashes_subset _ c hc
    obtain ⟨hq1, hq2, hq3⟩ := hPth c hcp
    exact ⟨hq1, hq2, fun hEq => hsemi (hEq ▸ hcp), mem_removeUnsafe_not c _ hq3⟩
  have h2 := normalize_assembled (urlsplitChars u).scheme (urlsplitChars u).netloc
    (rstripSlashes (urlsplitChars u).path) [] false hs hS2 hS3 hNchars hRchars (by simp)
  rw [show (if (false : Bool) = true then '?' :: ([] : Chars) else []) = [] from rfl,
    List.append_nil] at h2
  have harg : normalizeChars u
      = (urlsplitChars u).scheme ++ ':' :: '/' :: '/' ::
        ((urlsplitChars u).netloc ++ rstripSlashes (urlsplitChars u).path) := by
    rw [h1]
    simp
  have hRfix : rstripSlashes
        ((rstripSlashes (urlsplitChars u).path).dropWhile (fun c => c != '/'))
      = (rstripSlashes (urlsplitChars u).path).dropWhile (fun c => c != '/') := by
    apply rstripSlashes_suffix_fixed
      ((rstripSlashes (urlsplitChars u).path).takeWhile (fun c => c != '/'))
    rw [List.takeWhile_append_dropWhile]
    exact rstripSlashes_idem _
  rw [harg, h2, hSlow, hRfix]
  simp [List.append_assoc]

/-- Claim C9, as stated, is false at this concrete input: normalization
is not idempotent on all reference strings.  A scheme-less reference such
as `a` normalizes to `://a`, which re-normalizes to `://://a`. -/
theorem C9_counterexample :
    ProfileDatabase.normalize_url "a" = "://a"
    ∧ ProfileDatabase.normalize_url (ProfileDatabase.normalize_url "a") = "://://a"
    ∧ ProfileDatabase.normalize_url (ProfileDatabase.normalize_url "a")
      ≠ ProfileDatabase.normalize_url "a" := by
  refine ⟨by decide, by decide, by decide⟩

/-- Claim C9 amended: normalization is idempotent on every reference
string that parses with a non-empty scheme and a semicolon-free path (in
particular on every ordinary `http(s)` profile URL); it is NOT idempotent
in general — scheme-less references gain a spurious `://` on every pass
(see the counterexample), and a `;` exposed as trailing params by slash
stripping can be dropped on a second pass. -/
theorem C9_amended (x : String) (hs : (urlsplitChars x.toList).scheme ≠ [])
    (hsemi : ';' ∉ (urlsplitChars x.toList).path) :
    ProfileDatabase.normalize_url (ProfileDatabase.normalize_url x)
      = ProfileDatabase.normalize_url x := by
  unfold ProfileDatabase.normalize_url
  rw [show (String.mk (normalizeChars x.toList)).toList = normalizeChars x.toList from rfl]
  rw [normalizeChars_idem_of_scheme x.toList hs hsemi]

/-- Witness for the amended claim C9 at a concrete input. -/
theorem C9_amended_witness :
    (urlsplitChars ("https://www.linkedin.com/in/a".toList)).scheme ≠ []
    ∧ ';' ∉ (urlsplitChars ("https://www.linkedin.com/in/a".toList)).path
    ∧ ProfileDatabase.normalize_url
        (ProfileDatabase.normalize_url "https://www.linkedin.com/in/a")
      = ProfileDatabase.normalize_url "https://www.linkedin.com/in/a" :=
  ⟨by decide, by decide, C9_amended "https://www.linkedin.com/in/a" (by decide) (by decide)⟩
